import Mathlib

/-!
Verification of the CRC parameter reverse-engineer of delsum
(src/delsum-lib/src/checksum/crc/rev.rs) against its specification.

Polynomials over 𝔽₂ appear in two guises:
* a computable bit-vector representation (`Nat`, bit `i` = coefficient of `X^i`),
  used for the driver logic, intake, xorout elimination and factor enumeration;
  addition is XOR, exactly as the external 𝔽₂[X] provider implements it;
* Mathlib's `Polynomial (ZMod 2)` for the algebraic properties (init removal,
  pair cancellation, highest-power GCD), modelling the external arithmetic
  provider described in §6 of the specification (the provider itself,
  the `delsum_poly` crate, is not part of the sources under verification).
-/

namespace Delsum

/-- Error taxonomy of the reverser (`CheckReverserError` in rev.rs).
`missingParameterWidth` carries the message "width",
`missingParameterAtLeast3` the message "at least 3 parameters/files",
`unsuitableFilesNeedDifferentLength` the message
"need at least one file with different length". -/
inductive CheckReverserError
  | missingParameterWidth
  | missingParameterAtLeast3
  | unsuitableFilesNeedDifferentLength
deriving DecidableEq

/-- The known-parameter bundle handed to `reverse_crc` (`CRCBuilder<u128>`):
`width` plus optionally `poly`, `init`, `xorout`, `refin`, `refout`.
Numeric parameters are `u128` values, modelled as `Nat`. -/
structure CRCBuilderModel where
  width : Option Nat
  poly : Option Nat
  init : Option Nat
  xorout : Option Nat
  refin : Option Bool
  refout : Option Bool
deriving DecidableEq

/-- `1` for a known parameter, `0` otherwise (Rust's `is_some() as usize`). -/
def someCount (o : Option Nat) : Nat := if o.isSome then 1 else 0

/-- The fail-fast validation of `reverse` (rev.rs lines 86-106), which runs
before any polynomial arithmetic.  It depends only on the builder and on the
lengths of the input byte sequences.  Returns `some e` when the branch fails
with error `e` and `none` when the pipeline proceeds.
Faithful to the source, including the condition
`spec.init.is_some() || max == min` on line 100. -/
def reverseValidate (spec : CRCBuilderModel) (lens : List Nat) :
    Option CheckReverserError :=
  match spec.width with
  | Option.none => some CheckReverserError.missingParameterWidth
  | some _ =>
    if 3 > lens.length + someCount spec.init + someCount spec.xorout +
        someCount spec.poly then
      some CheckReverserError.missingParameterAtLeast3
    else if spec.init.isSome || lens.max? = lens.min? then
      some CheckReverserError.unsuitableFilesNeedDifferentLength
    else
      Option.none

/-- The validation the specification describes (§4.1): the equal-length check
applies only when `init` is unknown. Used to compare the source against the
spec's words. -/
def specValidate (spec : CRCBuilderModel) (lens : List Nat) :
    Option CheckReverserError :=
  match spec.width with
  | Option.none => some CheckReverserError.missingParameterWidth
  | some _ =>
    if 3 > lens.length + someCount spec.init + someCount spec.xorout +
        someCount spec.poly then
      some CheckReverserError.missingParameterAtLeast3
    else if spec.init = Option.none ∧ lens.max? = lens.min? then
      some CheckReverserError.unsuitableFilesNeedDifferentLength
    else
      Option.none

/-- `ref_comb` (rev.rs lines 64-76): the concrete `(refin, refout)`
combinations tried by the driver. -/
def ref_comb (maybeRefin maybeRefout : Option Bool) : List (Bool × Bool) :=
  let refins := match maybeRefin with
    | some x => [x]
    | Option.none => [false, true]
  let refouts := match maybeRefout with
    | some x => [x]
    | Option.none => [false, true]
  refins.flatMap (fun x => refouts.map (fun y => (x, y)))

/-- The per-branch validation outcome of `reverse_crc` (rev.rs lines 28-41):
for each `(refin, refout)` combination, `reverse` runs its fail-fast checks
(which do not depend on `refin`/`refout`) before any conversion to
polynomials; a branch whose validation fails contributes only its error and
no CRC candidates. -/
def reverse_crc_validations (spec : CRCBuilderModel) (lens : List Nat) :
    List ((Bool × Bool) × Option CheckReverserError) :=
  (ref_comb spec.refin spec.refout).map
    (fun rr => (rr, reverseValidate spec lens))

/-! ### Intake: `bytes_to_poly` and `cond_reverse` -/

/-- Reversal of the low 128 bits of a value (`u128::reverse_bits`). -/
def reverseBits128 (v : Nat) : Nat :=
  (List.range 128).foldl (fun acc i => acc ||| (((v >>> i) &&& 1) <<< (127 - i))) 0

/-- Reversal of the bit order within one octet. -/
def revByte (b : Nat) : Nat :=
  (List.range 8).foldl (fun acc i => acc ||| (((b >>> i) &&& 1) <<< (7 - i))) 0

/-- `cond_reverse` (rev.rs lines 801-807): reflect the lowest `width` bits of
`value` end-for-end when `refout` is set. -/
def cond_reverse (width : Nat) (value : Nat) (refout : Bool) : Nat :=
  if refout then reverseBits128 value >>> (128 - width) else value

/-- `u128::checked_shl`: `none` exactly when the shift amount is at least the
bit width 128, otherwise the (truncated) shifted value. -/
def checked_shl_u128 (v s : Nat) : Option Nat :=
  if 128 ≤ s then Option.none else some ((v <<< s) % 2 ^ 128)

/-- `u128::wrapping_sub(1)`. -/
def wrapping_sub_one_u128 (x : Nat) : Nat := (x + 2 ^ 128 - 1) % 2 ^ 128

/-- Big-endian byte string to bit-vector polynomial (most-significant byte
first, as the provider's `new_poly` reads it). -/
def bytesToNatBE (bs : List Nat) : Nat := bs.foldl (fun acc b => acc * 256 + b % 256) 0

/-- Modelled from the spec: the external provider's construction of a
polynomial from a byte string shifted left by an integer exponent (§6); the
final flag selects plain most-significant-bit-first bit order, otherwise the
bit order within each octet is reversed (§4.2). -/
def new_poly_shifted (bs : List Nat) (s : Nat) (msbFirst : Bool) : Nat :=
  bytesToNatBE (if msbFirst then bs else bs.map revByte) <<< s

/-- `bytes_to_poly` (rev.rs lines 793-799).  The checksum mask is
`1u128.checked_shl(width).unwrap().wrapping_sub(1)`; the `unwrap` panic is
modelled by returning `none`. -/
def bytes_to_poly (bytes : List Nat) (checksum : Nat) (width : Nat)
    (refin refout : Bool) : Option Nat :=
  (checked_shl_u128 1 width).map fun sh =>
    let check_mask := wrapping_sub_one_u128 sh
    let check := check_mask &&& cond_reverse width (checksum % 2 ^ 128) refout
    new_poly_shifted bytes width (!refin) ^^^ check

/-! ### `InitPlace` tags and xorout elimination -/

/-- The symbolic coefficient of the unknown `init` attached to each working
polynomial (rev.rs lines 203-208). -/
inductive InitPlace
  | place_none
  | single (d : Nat)
  | pair (d1 d2 : Nat)
deriving DecidableEq

/-- A working polynomial (bit-vector representation) with its tag
(`InitPoly` in rev.rs). -/
def InitPoly := Nat × InitPlace

/-- The symbolic-difference computation of `remove_xorouts`' inner match
(rev.rs lines 347-361): `None` is neutral, equal `Single`s cancel, distinct
`Single`s form a `Pair`; a `Pair` input is an internal-error panic, modelled
as `none`. -/
def newInitPlace : InitPlace → InitPlace → Option InitPlace
  | InitPlace.place_none, other => some other
  | other, InitPlace.place_none => some other
  | InitPlace.single l1, InitPlace.single l2 =>
      if l1 = l2 then some InitPlace.place_none else some (InitPlace.pair l1 l2)
  | _, _ => Option.none

/-- One step of `remove_xorouts`' loop body (rev.rs lines 343-368), given the
previous carrier and the current one. -/
def rxAppendix (maybeXorout : Option Nat) (prev cur : InitPoly) :
    Option InitPoly :=
  match maybeXorout, decide (cur.2 ≠ InitPlace.place_none ∧ cur.2 = prev.2) with
  | Option.none, _ | _, true =>
      (newInitPlace prev.2 cur.2).map (fun pl => (cur.1 ^^^ prev.1, pl))
  | some xorout, false => some (cur.1 ^^^ xorout, cur.2)

/-- The loop of `remove_xorouts` over the non-pivot carriers, scanned in the
order `polys.into_iter().rev()`; `prev` is always the previously scanned
original carrier. -/
def rxLoop (maybeXorout : Option Nat) : InitPoly → List InitPoly →
    Option (List InitPoly)
  | _, [] => some []
  | prev, c :: rest => do
      let a ← rxAppendix maybeXorout prev c
      let r ← rxLoop maybeXorout c rest
      pure (a :: r)

/-- `remove_xorouts` (rev.rs lines 326-373).  The pivot is obtained by
`polys.pop()` (the *last* element of the vector handed in); with known
`xorout` the pivot is re-emitted with `xorout` added, and the returned
xorout carrier is `(xorout, None)`; with unknown `xorout` the returned
carrier is a copy of the pivot.  Panics (empty input, `Pair` tags in the
difference branch) are modelled as `none`. -/
def remove_xorouts (maybeXorout : Option Nat) (polys : List InitPoly) :
    Option (List InitPoly × InitPoly) :=
  match polys.reverse with
  | [] => Option.none
  | prev :: rest =>
      (rxLoop maybeXorout prev rest).map fun rv =>
        match maybeXorout with
        | some xorout => ((prev.1 ^^^ xorout, prev.2) :: rv, (xorout, InitPlace.place_none))
        | Option.none => (rv, (prev.1, prev.2))

/-- The carrier list built by `rev_from_polys` (rev.rs lines 270-274) from the
intake list of `(polynomial, byte length)` pairs: the intake is traversed in
reverse and every carrier is tagged `Single(len)`. -/
def mkInitPolys (argPolys : List (Nat × Nat)) : List InitPoly :=
  argPolys.reverse.map (fun pl => (pl.1, InitPlace.single pl.2))

/-! ### The `MemoPower` monotone-query discipline -/

/-- The power levels a tag makes `MemoPower.update_init_fac` query, in order
(rev.rs lines 518-539): nothing for `None`, `d` for `Single(d)`, `d1` then
`d2` for `Pair(d1, d2)`. -/
def placeQueries : InitPlace → List Nat
  | InitPlace.place_none => []
  | InitPlace.single d => [d]
  | InitPlace.pair d1 d2 => [d1, d2]

/-- The level bookkeeping of `MemoPower` across a sequence of queries:
`prev_power` starts at `0`, each query must be at least the previous one or
the `"Internal Error: Polynomials non-ascending"` panic fires (modelled as
`none`); on success the final `prev_power` is returned. -/
def runMemoQueries : Nat → List Nat → Option Nat
  | pp, [] => some pp
  | pp, q :: rest => if q < pp then Option.none else runMemoQueries q rest

/-- All `MemoPower` levels queried while `find_init` (rev.rs lines 709-731)
walks a carrier list: `find_polyhull` forwards exactly the carriers whose tag
still holds `init` (rev.rs lines 391-404), in order, and `find_init` queries
each tag's levels. -/
def findInitQueries (polys : List InitPoly) : List Nat :=
  (polys.filter (fun c => c.2 ≠ InitPlace.place_none)).flatMap
    (fun c => placeQueries c.2)

/-- The levels queried for a carrier list without the `find_polyhull`
filtering; equal to `findInitQueries` because `None` tags query nothing. -/
def allQueries (polys : List InitPoly) : List Nat :=
  polys.flatMap (fun c => placeQueries c.2)

theorem findInitQueries_eq_allQueries (polys : List InitPoly) :
    findInitQueries polys = allQueries polys := by
  induction polys with
  | nil => rfl
  | cons c rest ih =>
    by_cases h : c.2 = InitPlace.place_none
    · simp [findInitQueries, allQueries, List.filter_cons, h, placeQueries] at *
      simpa [findInitQueries, allQueries] using ih
    · simp [findInitQueries, allQueries, List.filter_cons, h] at *
      simpa [findInitQueries, allQueries] using ih

theorem allQueries_append (l1 l2 : List InitPoly) :
    allQueries (l1 ++ l2) = allQueries l1 ++ allQueries l2 := by
  simp [allQueries]

theorem runMemoQueries_of_chain (pp : Nat) (qs : List Nat)
    (h : List.Chain' (· ≤ ·) (pp :: qs)) :
    runMemoQueries pp qs ≠ Option.none := by
  induction qs generalizing pp with
  | nil => simp [runMemoQueries]
  | cons q rest ih =>
    rw [List.chain'_cons] at h
    have hq : ¬ q < pp := by omega
    simp only [runMemoQueries, if_neg hq]
    exact ih q h.2

theorem chain'_cons_of_le {a b : Nat} {l : List Nat} (hab : a ≤ b)
    (h : List.Chain' (· ≤ ·) (b :: l)) : List.Chain' (· ≤ ·) (a :: l) := by
  cases l with
  | nil => simp
  | cons c rest =>
    rw [List.chain'_cons] at h ⊢
    exact ⟨le_trans hab h.1, h.2⟩

/-- Well-formedness of a tag: a `Pair` records the two distinct length
exponents with the smaller one first. -/
def tagOrdered (c : InitPoly) : Prop :=
  ∀ d1 d2, c.2 = InitPlace.pair d1 d2 → d1 < d2

/-- Invariant of the `remove_xorouts` loop: starting from a `Single a` pivot
and `Single`-tagged carriers whose lengths ascend from `a`, the loop
succeeds, every produced `Pair` is ordered, and the produced query levels
ascend starting from `a`. -/
theorem rxLoop_spec (mx : Option Nat) :
    ∀ (p a : Nat) (rest : List (Nat × Nat)),
    List.Chain' (· ≤ ·) (a :: rest.map Prod.snd) →
    ∃ out, rxLoop mx (p, InitPlace.single a)
        (rest.map (fun x => (x.1, InitPlace.single x.2))) = some out ∧
      (∀ c ∈ out, tagOrdered c) ∧
      List.Chain' (· ≤ ·) (a :: allQueries out) := by
  intro p a rest
  induction rest generalizing p a with
  | nil => intro _; exact ⟨[], rfl, by simp, by simp [allQueries]⟩
  | cons qb rest' ih =>
    intro hasc
    rw [List.map_cons, List.chain'_cons] at hasc
    obtain ⟨hab, hasc'⟩ := hasc
    obtain ⟨out', hout', hord', hchain'⟩ := ih qb.1 qb.2 hasc'
    by_cases heq : qb.2 = a
    · -- equal lengths: the difference branch cancels the tags
      refine ⟨(qb.1 ^^^ p, InitPlace.place_none) :: out', ?_, ?_, ?_⟩
      · subst heq
        simp [rxLoop, rxAppendix, newInitPlace, hout', Option.bind]
        cases mx <;> simp [rxAppendix, newInitPlace]
      · intro c hc
        rcases List.mem_cons.mp hc with h | h
        · subst h; intro d1 d2 h; simp at h
        · exact hord' c h
      · subst heq
        simpa [allQueries, placeQueries] using hchain'
    · -- distinct lengths
      have hlt : a < qb.2 := lt_of_le_of_ne hab (fun h => heq h.symm)
      cases mx with
      | none =>
        have hne2 : ¬ a = qb.2 := fun h => heq h.symm
        refine ⟨(qb.1 ^^^ p, InitPlace.pair a qb.2) :: out', ?_, ?_, ?_⟩
        · simp [rxLoop, rxAppendix, newInitPlace, hne2, hout', Option.bind]
        · intro c hc
          rcases List.mem_cons.mp hc with h | h
          · subst h; intro d1 d2 h
            simp at h
            omega
          · exact hord' c h
        · simp only [allQueries, List.flatMap_cons, placeQueries,
            List.cons_append, List.nil_append]
          rw [List.chain'_cons, List.chain'_cons]
          exact ⟨le_refl a, le_of_lt hlt, by
            simpa [allQueries] using hchain'⟩
      | some x =>
        refine ⟨(qb.1 ^^^ x, InitPlace.single qb.2) :: out', ?_, ?_, ?_⟩
        · simp [rxLoop, rxAppendix, heq, hout', Option.bind]
        · intro c hc
          rcases List.mem_cons.mp hc with h | h
          · subst h; intro d1 d2 h; simp at h
          · exact hord' c h
        · simp only [allQueries, List.flatMap_cons, placeQueries,
            List.cons_append, List.nil_append]
          rw [List.chain'_cons]
          exact ⟨hab, by simpa [allQueries] using hchain'⟩

theorem mkInitPolys_reverse (l : List (Nat × Nat)) :
    (mkInitPolys l).reverse = l.map (fun pl => (pl.1, InitPlace.single pl.2)) := by
  simp [mkInitPolys]

/-- Behaviour of `remove_xorouts` on the carrier list `rev_from_polys` builds
from an ascending-length intake `h :: t`: it succeeds, the returned xorout
carrier is `(xorout, None)` when `xorout` is known and a copy of the *first*
(shortest) intake element otherwise, every produced `Pair` tag is ordered,
and the `MemoPower` query levels of the output ascend from `h.2`. -/
theorem remove_xorouts_spec (mx : Option Nat) (h : Nat × Nat) (t : List (Nat × Nat))
    (hasc : List.Chain' (· ≤ ·) ((h :: t).map Prod.snd)) :
    ∃ out, remove_xorouts mx (mkInitPolys (h :: t)) =
        some (out,
          match mx with
          | some x => (x, InitPlace.place_none)
          | Option.none => (h.1, InitPlace.single h.2)) ∧
      (∀ c ∈ out, tagOrdered c) ∧
      List.Chain' (· ≤ ·) (h.2 :: allQueries out) ∧
      (∀ x, mx = some x → out.head? = some (h.1 ^^^ x, InitPlace.single h.2)) := by
  have hasc' : List.Chain' (· ≤ ·) (h.2 :: t.map Prod.snd) := by
    simpa using hasc
  obtain ⟨out', hout', hord', hchain'⟩ := rxLoop_spec mx h.1 h.2 t hasc'
  unfold remove_xorouts
  rw [mkInitPolys_reverse]
  simp only [List.map_cons]
  cases mx with
  | none =>
    exact ⟨out', by simp [hout'], hord', hchain', by simp⟩
  | some x =>
    refine ⟨(h.1 ^^^ x, InitPlace.single h.2) :: out', by simp [hout'], ?_, ?_, by simp⟩
    · intro c hc
      rcases List.mem_cons.mp hc with hcc | hcc
      · subst hcc; intro d1 d2 hp; simp at hp
      · exact hord' c hcc
    · simp only [allQueries, List.flatMap_cons, placeQueries, List.cons_append,
        List.nil_append]
      rw [List.chain'_cons]
      exact ⟨le_refl _, by simpa [allQueries] using hchain'⟩

theorem chain'_zero_cons (qs : List Nat) (h : List.Chain' (· ≤ ·) qs) :
    List.Chain' (· ≤ ·) (0 :: qs) := by
  cases qs with
  | nil => simp
  | cons q rest => exact List.chain'_cons.mpr ⟨Nat.zero_le _, h⟩

theorem allQueries_prefix {l1 l2 : List InitPoly} (h : l1 <+: l2) :
    allQueries l1 <+: allQueries l2 := by
  obtain ⟨s, hs⟩ := h
  exact ⟨allQueries s, by rw [← allQueries_append, hs]⟩

/-- **C9.** For every input list of `Single`-tagged carriers that the driver
has arranged so that `remove_xorouts` processes them in ascending length
order (the intake sorted ascending, handed over reversed, popped and scanned
from the back), xorout elimination succeeds, every `Pair(d1, d2)` tag it
produces satisfies `d1 < d2`, the output carriers' query levels are again
ascending, and every `MemoPower` query made by `find_init` — on any prefix of
the output, covering `find_polyhull`'s early exits — is non-decreasing, so
the `"Internal Error: Polynomials non-ascending"` panic is unreachable. -/
theorem C9_pair_order_and_memo_monotone (mx : Option Nat)
    (argPolys : List (Nat × Nat)) (hne : argPolys ≠ [])
    (hasc : List.Chain' (· ≤ ·) (argPolys.map Prod.snd)) :
    ∃ out xr, remove_xorouts mx (mkInitPolys argPolys) = some (out, xr) ∧
      (∀ c ∈ out, ∀ d1 d2, c.2 = InitPlace.pair d1 d2 → d1 < d2) ∧
      List.Chain' (· ≤ ·) (findInitQueries out) ∧
      (∀ pre, pre <+: out →
        runMemoQueries 0 (findInitQueries pre) ≠ Option.none) := by
  obtain ⟨h, t, rfl⟩ : ∃ h t, argPolys = h :: t := by
    cases argPolys with
    | nil => exact absurd rfl hne
    | cons h t => exact ⟨h, t, rfl⟩
  obtain ⟨out, hout, hord, hchain, _⟩ := remove_xorouts_spec mx h t hasc
  have hchain_all : List.Chain' (· ≤ ·) (allQueries out) := hchain.tail
  refine ⟨out, _, hout, fun c hc => hord c hc, ?_, ?_⟩
  · rw [findInitQueries_eq_allQueries]; exact hchain_all
  · intro pre hpre
    rw [findInitQueries_eq_allQueries]
    have hq : allQueries pre <+: allQueries out := allQueries_prefix hpre
    have hchain_pre : List.Chain' (· ≤ ·) (allQueries pre) :=
      List.Chain'.prefix hchain_all hq
    exact runMemoQueries_of_chain 0 _ (chain'_zero_cons _ hchain_pre)

/-- Witness for C9 at a concrete ascending intake. -/
theorem C9_witness :
    (([(1, 1), (2, 2), (3, 4)] : List (Nat × Nat)) ≠ [] ∧
      List.Chain' (· ≤ ·) (([(1, 1), (2, 2), (3, 4)] : List (Nat × Nat)).map Prod.snd)) ∧
    (∃ out xr, remove_xorouts Option.none
        (mkInitPolys [(1, 1), (2, 2), (3, 4)]) = some (out, xr) ∧
      (∀ c ∈ out, ∀ d1 d2, c.2 = InitPlace.pair d1 d2 → d1 < d2) ∧
      List.Chain' (· ≤ ·) (findInitQueries out) ∧
      (∀ pre, pre <+: out →
        runMemoQueries 0 (findInitQueries pre) ≠ Option.none)) :=
  ⟨⟨by decide, by norm_num [List.chain'_cons]⟩,
    C9_pair_order_and_memo_monotone Option.none [(1, 1), (2, 2), (3, 4)]
      (by decide) (by norm_num [List.chain'_cons])⟩

/-- **C2, counterexample.** The claim states that the xorout pivot is the
polynomial of the *longest* byte sequence.  On the ascending intake
`[(P=2, len=1), (P=5, len=2)]` the returned xorout carrier is `(2, Single 1)`
— the polynomial of the *shortest* sequence — and `2 ≠ 5`, refuting the
claim: `rev_from_polys` reverses the ascending intake and `remove_xorouts`
pops the last element of that reversed vector. -/
theorem C2_counterexample :
    (remove_xorouts Option.none (mkInitPolys [(2, 1), (5, 2)])).map
        (fun r => r.2) = some (2, InitPlace.single 1) ∧ (2 : Nat) ≠ 5 := by
  constructor
  · rfl
  · decide

/-- **C2, amended.** In xorout elimination the pivot carrier — the one whose
polynomial is copied into the returned xorout carrier when `xorout` is
unknown, and to which `xorout` is added to form the extra working polynomial
when it is known — is the polynomial of the *shortest* byte sequence, i.e.
the first element after the ascending-length sort of intake; the remaining
carriers are then scanned shortest-first next to the pivot. -/
theorem C2_pivot_is_shortest (mx : Option Nat) (h : Nat × Nat)
    (t : List (Nat × Nat))
    (hasc : List.Chain' (· ≤ ·) ((h :: t).map Prod.snd)) :
    ∃ out, remove_xorouts mx (mkInitPolys (h :: t)) =
        some (out,
          match mx with
          | some x => (x, InitPlace.place_none)
          | Option.none => (h.1, InitPlace.single h.2)) ∧
      (∀ x, mx = some x → out.head? = some (h.1 ^^^ x, InitPlace.single h.2)) := by
  obtain ⟨out, hout, _, _, hhead⟩ := remove_xorouts_spec mx h t hasc
  exact ⟨out, hout, hhead⟩

/-- Witness for the amended C2 at a concrete ascending intake with known
xorout. -/
theorem C2_witness :
    List.Chain' (· ≤ ·) ((((7, 1) : Nat × Nat) :: [(9, 3)]).map Prod.snd) ∧
    (∃ out, remove_xorouts (some 4) (mkInitPolys ((7, 1) :: [(9, 3)])) =
        some (out,
          match (some 4 : Option Nat) with
          | some x => (x, InitPlace.place_none)
          | Option.none => ((7 : Nat), InitPlace.single 1)) ∧
      (∀ x, (some 4 : Option Nat) = some x →
        out.head? = some (7 ^^^ x, InitPlace.single 1))) :=
  ⟨by norm_num [List.chain'_cons], C2_pivot_is_shortest (some 4) (7, 1) [(9, 3)] (by norm_num [List.chain'_cons])⟩

/-- **C1.** The claim states that a width-carrying builder passing the
at-least-3-parameters check fails with
`UnsuitableFiles("need at least one file with different length")` iff `init`
is unknown and all byte-sequence lengths are identical, and that with `init`
known the pipeline proceeds.  The source (rev.rs line 100) instead tests
`spec.init.is_some() || max == min`: with `init` known (builder
`{width: 32, init: 0}`, lengths `[1, 2, 3]`, which passes the 3-parameter
check with `3 + 1 ≥ 3` and has non-identical lengths) the code fails with
`UnsuitableFiles` while the specified validation proceeds.  This contradicts
the module's own documentation (rev.rs lines 11-12: with all files the same
length, "setting `init = 0` is sufficient"). -/
theorem C1_init_known_validation_bug :
    reverseValidate ⟨some 32, Option.none, some 0, Option.none, some true, some true⟩
        [1, 2, 3] = some CheckReverserError.unsuitableFilesNeedDifferentLength ∧
    specValidate ⟨some 32, Option.none, some 0, Option.none, some true, some true⟩
        [1, 2, 3] = Option.none ∧
    ([1, 2, 3] : List Nat).max? ≠ ([1, 2, 3] : List Nat).min? := by
  refine ⟨rfl, ?_, by decide⟩
  simp [specValidate, someCount]

/-- **C4.** The claim states that for every subset of parameters declared
known, `reverse_crc` on ≥ 4 distinct-length checksummed sequences enumerates
the true CRC.  When `init` is among the declared-known parameters (builder
`{width: 32, init: 0xFFFFFFFF, refin: true, refout: true}` with sequence
lengths `[1, 2, 3, 4]`), the validation of every `(refin, refout)` branch
fails with `UnsuitableFiles` before any arithmetic (rev.rs line 100), so the
iterator contains only errors and no CRC candidate at all — in particular
not the true one. -/
theorem C4_roundtrip_fails_with_known_init :
    reverse_crc_validations
        ⟨some 32, Option.none, some 0xFFFFFFFF, Option.none, some true, some true⟩
        [1, 2, 3, 4] =
      [((true, true), some CheckReverserError.unsuitableFilesNeedDifferentLength)] := by
  rfl

/-- **C10.** Intake is total exactly for widths up to 127: for `1 ≤ width ≤
127` the checksum-mask shift `1u128.checked_shl(width)` succeeds and
`bytes_to_poly` is defined, whereas for `width = 128` — permitted by the
spec's CRC record range `[1, 128]` — the checked shift returns `None` and the
`unwrap` panics (modelled as `none`). -/
theorem C10_bytes_to_poly_totality (bytes : List Nat) (checksum width : Nat)
    (refin refout : Bool) :
    (1 ≤ width → width ≤ 127 →
      (bytes_to_poly bytes checksum width refin refout).isSome = true) ∧
    (width = 128 → bytes_to_poly bytes checksum width refin refout = Option.none) := by
  constructor
  · intro _ h2
    have hlt : ¬ 128 ≤ width := by omega
    simp [bytes_to_poly, checked_shl_u128, hlt]
  · intro h
    subst h
    simp [bytes_to_poly, checked_shl_u128]

/-- Witness for C10 at width 8 (defined) and width 128 (panic). -/
theorem C10_witness :
    ((1 : Nat) ≤ 8 ∧ (8 : Nat) ≤ 127 ∧
      (bytes_to_poly [18, 52] 5 8 false true).isSome = true) ∧
    bytes_to_poly [18, 52] 5 128 true false = Option.none :=
  ⟨⟨by decide, by decide,
      (C10_bytes_to_poly_totality [18, 52] 5 8 false true).1 (by decide) (by decide)⟩,
    (C10_bytes_to_poly_totality [18, 52] 5 128 true false).2 rfl⟩

/-! ### Carry-less 𝔽₂[X] arithmetic on the bit-vector representation

Modelled from the spec (§6): the external provider's multiplication, degree
probe and remainder on polynomials represented as bit vectors.  The fuel
arguments only drive structural recursion (the first operand halves each
step), so concrete evaluations reduce in the kernel. -/

/-- Carry-less multiplication, recursing over the bits of the first operand. -/
def f2mulAux : Nat → Nat → Nat → Nat
  | 0, _, _ => 0
  | fuel + 1, a, b =>
    if a = 0 then 0
    else (if a % 2 = 1 then b else 0) ^^^ f2mulAux fuel (a / 2) (2 * b)

/-- 𝔽₂[X] product of two bit-vector polynomials. -/
def f2mul (a b : Nat) : Nat := f2mulAux a a b

/-- 𝔽₂[X] power. -/
def f2pow (p : Nat) : Nat → Nat
  | 0 => 1
  | m + 1 => f2mul p (f2pow p m)

/-- Degree probe (`deg`); used by the source only on non-zero polynomials. -/
def degAux : Nat → Nat → Nat
  | 0, _ => 0
  | fuel + 1, p => if p ≤ 1 then 0 else degAux fuel (p / 2) + 1

/-- Degree of a non-zero bit-vector polynomial. -/
def degF2 (p : Nat) : Nat := degAux p p

/-- Remainder of `a` by a non-zero `b`, clearing the leading bit each step. -/
def f2modAux : Nat → Nat → Nat → Nat
  | 0, a, _ => a
  | fuel + 1, a, b =>
    if a = 0 ∨ degF2 a < degF2 b then a
    else f2modAux fuel (a ^^^ (b <<< (degF2 a - degF2 b))) b

/-- 𝔽₂[X] remainder. -/
def f2mod (a b : Nat) : Nat := f2modAux (degF2 a + 1) a b

/-- Modelled from the spec: certifies the external provider's factorisation
contract — a polynomial of degree ≥ 1 is irreducible over 𝔽₂ iff no
polynomial of degree between 1 and half its degree divides it. -/
def f2irreducible (p : Nat) : Bool :=
  decide (1 ≤ degF2 p) &&
    (List.range' 2 (2 ^ (degF2 p / 2 + 1) - 2)).all
      (fun q => !(decide (degF2 q ≤ degF2 p / 2) && decide (f2mod p q = 0)))

/-- The degree-≤`width` sieve product `∏_{d=1..width} (X^(2^d) + X)`
(§4.5 pass 3), materialised rather than reduced. -/
def sieveProduct (width : Nat) : Nat :=
  (List.range width).foldl (fun acc d => f2mul (2 ^ 2 ^ (d + 1) ^^^ 2) acc) 1

/-- Product of a `(factor, multiplicity)` list. -/
def gensProduct (gens : List (Nat × Nat)) : Nat :=
  gens.foldl (fun acc pl => f2mul (f2pow pl.1 pl.2) acc) 1

/-! ### `find_prod_comb` -/

/-- `ret[i].push(x)` on the bucket vector. -/
def pushAt (ret : List (List Nat)) (i : Nat) (x : Nat) : List (List Nat) :=
  ret.set i (ret.getD i [] ++ [x])

/-- The inner double loop of `find_prod_comb` (rev.rs lines 782-786): for
each bucket `j` of the snapshot up to `width - incDeg` and each entry `m` in
it, push `q·m` into bucket `j + incDeg`. -/
def innerProducts (width incDeg q : Nat) (retcopy ret : List (List Nat)) :
    List (List Nat) :=
  (List.range (width - incDeg + 1)).foldl
    (fun r j =>
      (retcopy.getD j []).foldl (fun r2 m => pushAt r2 (j + incDeg) (f2mul q m)) r)
    ret

/-- The multiplicity loop of `find_prod_comb` (rev.rs lines 776-788):
iterate `l` times over the powers `q` of the factor, pushing `q` and its
products with the pre-generator snapshot, breaking once `deg q > width`. -/
def multLoop (width p : Nat) (retcopy : List (List Nat)) :
    Nat → Nat → List (List Nat) → List (List Nat)
  | 0, _, ret => ret
  | k + 1, q, ret =>
    let incDeg := degF2 q
    if width < incDeg then ret
    else
      multLoop width p retcopy k (f2mul q p)
        (innerProducts width incDeg q retcopy (pushAt ret incDeg q))

/-- `find_prod_comb` (rev.rs lines 761-791): enumerate all products of the
given `(factor, multiplicity)` pairs, bucketed by degree, and return the
bucket of degree exactly `width` (the vector's popped last element). -/
def find_prod_comb (width : Nat) (gens : List (Nat × Nat)) : List Nat :=
  let ret0 := (List.range (width + 1)).map (fun _ => ([] : List Nat))
  let ret := gens.foldl (fun ret pl => multLoop width pl.1 ret pl.2 pl.1 ret) ret0
  ret.getD width []

/-- The irreducible factorisation, with multiplicities, of the full
degree-≤8 sieve product `∏_{d=1..8}(X^(2^d) + X)`: every 𝔽₂-irreducible of
degree `k ≤ 8` with multiplicity `⌊8/k⌋` (certified inside the C7 theorem:
the factors multiply back to the sieve product and each passes the
irreducibility check). -/
def gf8 : List (Nat × Nat) :=
  [(2, 8), (3, 8), (7, 4), (11, 2), (13, 2), (19, 2), (25, 2), (31, 2),
    (37, 1), (41, 1), (47, 1), (55, 1), (59, 1), (61, 1), (67, 1), (73, 1),
    (87, 1), (91, 1), (97, 1), (103, 1), (109, 1), (115, 1), (117, 1),
    (131, 1), (137, 1), (143, 1), (145, 1), (157, 1), (167, 1), (171, 1),
    (185, 1), (191, 1), (193, 1), (203, 1), (211, 1), (213, 1), (229, 1),
    (239, 1), (241, 1), (247, 1), (253, 1), (283, 1), (285, 1), (299, 1),
    (301, 1), (313, 1), (319, 1), (333, 1), (351, 1), (355, 1), (357, 1),
    (361, 1), (369, 1), (375, 1), (379, 1), (391, 1), (395, 1), (397, 1),
    (415, 1), (419, 1), (425, 1), (433, 1), (445, 1), (451, 1), (463, 1),
    (471, 1), (477, 1), (487, 1), (499, 1), (501, 1), (505, 1)]

/-- The concrete output of `find_prod_comb 8 gf8`, in emission order. -/
def c7Expected : List Nat :=
  [256, 384, 320, 480, 272, 408, 340, 510, 257, 448, 288, 432, 360, 476,
  306, 427, 336, 504, 260, 390, 325, 428, 378, 455, 273, 352, 464, 312,
  420, 374, 461, 392, 332, 490, 287, 302, 441, 276, 414, 337, 475, 416,
  368, 456, 300, 442, 359, 280, 404, 350, 497, 466, 315, 508, 258, 387,
  381, 324, 486, 277, 439, 304, 424, 380, 450, 291, 484, 278, 413, 367,
  346, 503, 398, 329, 261, 400, 344, 500, 270, 393, 316, 418, 371, 493,
  454, 293, 362, 479, 443, 321, 496, 264, 396, 330, 495, 372, 462, 297,
  403, 434, 363, 310, 429, 465, 279, 341, 296, 444, 354, 467, 502, 269,
  327, 409, 328, 492, 282, 407, 446, 353, 307, 453, 376, 452, 294, 437,
  410, 343, 265, 491, 440, 356, 470, 317, 266, 399, 481, 339, 472, 308,
  430, 377, 322, 483, 405, 271, 488, 284, 402, 347, 358, 469, 431, 289,
  268, 394, 335, 457, 292, 438, 365, 511, 348, 498, 267, 421, 364, 474,
  311, 385, 388, 326, 485, 295, 412, 338, 507, 309, 436, 366, 473, 259,
  460, 298, 447, 345, 468, 318, 417, 331, 262, 389, 274, 411, 286, 401,
  290, 435, 314, 423, 334, 489, 342, 509, 370, 459, 382, 449, 386, 323,
  406, 349, 422, 373, 426, 383, 458, 303, 478, 305, 482, 275, 494, 281,
  506, 263, 283, 285, 299, 301, 313, 319, 333, 351, 355, 357, 361, 369,
  375, 379, 391, 395, 397, 415, 419, 425, 433, 445, 451, 463, 471, 477,
  487, 499, 501, 505]

set_option maxRecDepth 100000 in
set_option maxHeartbeats 4000000 in
/-- **C7.** Applied to the irreducible factorisation (with multiplicities)
of the full degree-≤8 sieve product `∏_{d=1..8}(X^(2^d) + X)`,
`find_prod_comb` with width 8 enumerates every polynomial of degree exactly
8 with leading coefficient 1 exactly once: its output has 256
pairwise-distinct entries, each in `[256, 512)` (i.e. bit-vector
representations of the monic degree-8 polynomials over 𝔽₂), and every such
value appears exactly once.  The first two conjuncts certify that `gf8` is
indeed that factorisation: its expanded product equals the sieve product and
each listed factor is irreducible. -/
theorem C7_find_prod_comb_coverage :
    gensProduct gf8 = sieveProduct 8 ∧
    (∀ pm ∈ gf8, f2irreducible pm.1 = true ∧ 1 ≤ pm.2) ∧
    (gf8.map Prod.fst).Nodup ∧
    (find_prod_comb 8 gf8).length = 256 ∧
    (find_prod_comb 8 gf8).Nodup ∧
    (∀ x ∈ find_prod_comb 8 gf8, 256 ≤ x ∧ x < 512) ∧
    (∀ x ∈ List.range' 256 256, (find_prod_comb 8 gf8).count x = 1) := by
  have hL : find_prod_comb 8 gf8 = c7Expected := by rfl
  refine ⟨by decide, by decide, by decide, ?_, ?_, ?_, ?_⟩ <;> rw [hL]
  · rfl
  · decide
  · decide
  · decide

/-! ### The external 𝔽₂[X] arithmetic provider, modelled from the spec (§6)

The provider (`delsum_poly`, backed by NTL/gf2x) is external to the sources
under verification; the spec describes it as exact 𝔽₂[X] arithmetic with
addition, multiplication, division with remainder, GCD and shifts.  We model
it with Mathlib's `Polynomial (ZMod 2)`; the algebraic stages of rev.rs are
then embedded over this ring. -/

abbrev F2X : Type := Polynomial (ZMod 2)

theorem ZMod2.eq_one_of_ne_zero : ∀ s : ZMod 2, s ≠ 0 → s = 1 := by decide

theorem F2X.isUnit_eq_one {u : F2X} (h : IsUnit u) : u = 1 := by
  obtain ⟨r, hr, rfl⟩ := Polynomial.isUnit_iff.mp h
  simp [ZMod2.eq_one_of_ne_zero r hr.ne_zero]

theorem F2X.eq_of_associated {x y : F2X} (h : Associated x y) : x = y := by
  obtain ⟨u, rfl⟩ := h
  rw [F2X.isUnit_eq_one u.isUnit, mul_one]

theorem F2X.dvd_antisymm {x y : F2X} (h1 : x ∣ y) (h2 : y ∣ x) : x = y :=
  F2X.eq_of_associated (associated_of_dvd_dvd h1 h2)

theorem F2X.add_self (x : F2X) : x + x = 0 := CharTwo.add_self_eq_zero x

/-- In 𝔽₂[X], a polynomial is divisible by `g` together with its remainder
mod `g` (subtraction and addition coincide in characteristic two). -/
theorem F2X.dvd_add_mod (g a : F2X) : g ∣ a + a % g := by
  refine ⟨a / g, ?_⟩
  calc a + a % g = g * (a / g) + a % g + a % g := by
        rw [EuclideanDomain.div_add_mod]
    _ = g * (a / g) + (a % g + a % g) := by ring
    _ = g * (a / g) := by rw [F2X.add_self, add_zero]

/-! ### Init elimination (`remove_inits`) and Property 1 -/

/-- The provider's `shift` by a non-negative exponent: multiplication by
`X^n`. -/
noncomputable def shiftPoly (p : F2X) (n : Nat) : F2X := p * Polynomial.X ^ n

/-- `remove_inits` (rev.rs lines 309-324) over the provider's polynomials:
each carrier tagged `Single(d)` gets `init · X^(8d)` added and is retagged
`None`; `None` tags pass through; a `Pair` tag is the
`"remove_inits should not receive Pair Inits"` panic, modelled as `none`. -/
noncomputable def remove_inits (init : F2X) :
    List (F2X × InitPlace) → Option (List (F2X × InitPlace))
  | [] => some []
  | (p, InitPlace.single d) :: rest =>
      (remove_inits init rest).map
        (fun r => (p + shiftPoly init (8 * d), InitPlace.place_none) :: r)
  | (p, InitPlace.place_none) :: rest =>
      (remove_inits init rest).map (fun r => (p, InitPlace.place_none) :: r)
  | (_, InitPlace.pair _ _) :: _ => Option.none

/-- Modelled from the spec: the forward CRC evaluator at the polynomial
level (glossary: a CRC is the residue of `init·X^l + data·X^w` modulo the
generator, xor-masked with `xorout`), used only as an oracle. -/
noncomputable def crcChecksumPoly (g init xorout data : F2X) (w l : Nat) : F2X :=
  (init * Polynomial.X ^ (8 * l) + data * Polynomial.X ^ w) % g + xorout

/-- The carrier a byte sequence contributes before init elimination:
`data·X^width + (checksum − xorout)` tagged `Single(len)` (the checksum with
`xorout` already subtracted, as in `bytes_to_poly` composed with the xorout
removal the tests perform). -/
noncomputable def mkCarrier (g init xorout data : F2X) (w l : Nat) :
    F2X × InitPlace :=
  (data * Polynomial.X ^ w + (crcChecksumPoly g init xorout data w l + xorout),
    InitPlace.single l)

/-- **C6.** Init removal: for every generator `g` (the CRC polynomial with
its leading `X^width` reinstated), true `init` and `xorout`, and every list
of byte sequences (as polynomials `data` with byte lengths `l`), building
the carriers `P = data·X^width + checksum − (xorout)` tagged `Single(l)` and
applying `remove_inits` with the true `init` succeeds, and every resulting
polynomial — `data·X^width + checksum − init·X^(8l) − xorout` — is divisible
by `g`. -/
theorem C6_remove_inits_divisibility (g init xorout : F2X) (w : Nat)
    (inputs : List (F2X × Nat)) :
    ∃ out, remove_inits init
        (inputs.map (fun dl => mkCarrier g init xorout dl.1 w dl.2)) = some out ∧
      ∀ c ∈ out, g ∣ c.1 := by
  induction inputs with
  | nil => exact ⟨[], rfl, by simp⟩
  | cons dl rest ih =>
    obtain ⟨out, hout, hdvd⟩ := ih
    refine ⟨(dl.1 * Polynomial.X ^ w +
        (crcChecksumPoly g init xorout dl.1 w dl.2 + xorout) +
        shiftPoly init (8 * dl.2), InitPlace.place_none) :: out, ?_, ?_⟩
    · simp only [mkCarrier] at hout ⊢
      simp [remove_inits, hout]
    · intro c hc
      rcases List.mem_cons.mp hc with hcc | hcc
      · subst hcc
        have hA : dl.1 * Polynomial.X ^ w +
            (crcChecksumPoly g init xorout dl.1 w dl.2 + xorout) +
            shiftPoly init (8 * dl.2) =
            (init * Polynomial.X ^ (8 * dl.2) + dl.1 * Polynomial.X ^ w) +
              (init * Polynomial.X ^ (8 * dl.2) + dl.1 * Polynomial.X ^ w) % g +
              (xorout + xorout) := by
          rw [crcChecksumPoly, shiftPoly]
          ring
        rw [hA, F2X.add_self, add_zero]
        exact F2X.dvd_add_mod g _
      · exact hdvd c hcc

/-! ### Poly-hull pass 2: the pair-cancellation multipliers (C3) -/

/-- `power_8n` (rev.rs line 408): `new_poly_shifted(&[1], 8n, true) = X^(8n)`. -/
noncomputable def power8n (n : Nat) : F2X := Polynomial.X ^ (8 * n)

/-- The tag polynomial: the symbolic weight of `init` an `InitPlace`
records (spec §3). -/
noncomputable def placeEval : InitPlace → F2X
  | InitPlace.place_none => 0
  | InitPlace.single d => power8n d
  | InitPlace.pair d1 d2 => power8n d1 + power8n d2

/-- The `min` the source computes in each branch of the pair-cancellation
factor derivation (rev.rs lines 412-440), including the `d1.min(d1).min(e)`
of the `(Pair, Single)` branch on line 426; `None` tags are the
`unreachable!()` on line 413. -/
def codeMin : InitPlace → InitPlace → Option Nat
  | InitPlace.single d, InitPlace.single e => some (min d e)
  | InitPlace.single d, InitPlace.pair e1 e2 => some (min (min d e1) e2)
  | InitPlace.pair d1 _, InitPlace.single e => some (min (min d1 d1) e)
  | InitPlace.pair d1 d2, InitPlace.pair e1 e2 =>
      some (min (min (min d1 d2) e1) e2)
  | _, _ => Option.none

/-- The `min` the specification describes: the minimum of all length
exponents appearing in either tag, in every branch. -/
def specMin : InitPlace → InitPlace → Option Nat
  | InitPlace.single d, InitPlace.single e => some (min d e)
  | InitPlace.single d, InitPlace.pair e1 e2 => some (min d (min e1 e2))
  | InitPlace.pair d1 d2, InitPlace.single e => some (min (min d1 d2) e)
  | InitPlace.pair d1 d2, InitPlace.pair e1 e2 =>
      some (min (min d1 d2) (min e1 e2))
  | _, _ => Option.none

/-- The scalar multipliers `(p_fac, q_fac)` of `find_polyhull`'s pass 2
(rev.rs lines 412-440), built branch by branch exactly as the source does. -/
noncomputable def pairFacs : InitPlace → InitPlace → Option (F2X × F2X)
  | InitPlace.single d, InitPlace.single e =>
      let m0 := min d e
      some (power8n (d - m0), power8n (e - m0))
  | InitPlace.single d, InitPlace.pair e1 e2 =>
      let m0 := min (min d e1) e2
      some (power8n (d - m0), power8n (e2 - m0) + power8n (e1 - m0))
  | InitPlace.pair d1 d2, InitPlace.single e =>
      let m0 := min (min d1 d1) e
      some (power8n (d2 - m0) + power8n (d1 - m0), power8n (e - m0))
  | InitPlace.pair d1 d2, InitPlace.pair e1 e2 =>
      let m0 := min (min (min d1 d2) e1) e2
      some (power8n (d2 - m0) + power8n (d1 - m0),
        power8n (e2 - m0) + power8n (e1 - m0))
  | _, _ => Option.none

/-- The combination `p_fac·Q + q_fac·P` GCD'd into the hull
(rev.rs lines 441-445). -/
noncomputable def pairCombine (p q : F2X) (l m : InitPlace) : Option F2X :=
  (pairFacs l m).map (fun fs => fs.1 * q + fs.2 * p)

/-- The invariant deferred carriers reaching pass 2 satisfy: the tag still
holds `init` (`None` is filtered out in pass 1), and a `Pair(d1, d2)`
produced by xorout elimination has `d1 < d2`
(proved in `rxLoop_spec`/`remove_xorouts_spec`). -/
def deferredTag : InitPlace → Prop
  | InitPlace.place_none => False
  | InitPlace.single _ => True
  | InitPlace.pair d1 d2 => d1 < d2

theorem power8n_mul_sub {m0 d : Nat} (h : m0 ≤ d) :
    power8n m0 * power8n (d - m0) = power8n d := by
  rw [power8n, power8n, power8n, ← pow_add]
  congr 1
  omega

/-- Factor structure: for deferred tags, the code's `min` exists and the
multipliers satisfy `placeEval l = X^(8·min) · p_fac` and
`placeEval m = X^(8·min) · q_fac`. -/
theorem pairFacs_eval (l m : InitPlace) (hl : deferredTag l)
    (hm : deferredTag m) :
    ∃ m0 fp fq, codeMin l m = some m0 ∧ pairFacs l m = some (fp, fq) ∧
      placeEval l = power8n m0 * fp ∧ placeEval m = power8n m0 * fq := by
  cases l with
  | place_none => exact absurd hl id
  | single d =>
    cases m with
    | place_none => exact absurd hm id
    | single e =>
      exact ⟨min d e, _, _, rfl, rfl,
        (power8n_mul_sub (Nat.min_le_left d e)).symm,
        (power8n_mul_sub (Nat.min_le_right d e)).symm⟩
    | pair e1 e2 =>
      refine ⟨min (min d e1) e2, _, _, rfl, rfl,
        (power8n_mul_sub (by omega)).symm, ?_⟩
      rw [placeEval, mul_add, power8n_mul_sub (by omega : min (min d e1) e2 ≤ e2),
        power8n_mul_sub (by omega : min (min d e1) e2 ≤ e1), add_comm]
  | pair d1 d2 =>
    have hd : d1 < d2 := hl
    cases m with
    | place_none => exact absurd hm id
    | single e =>
      refine ⟨min (min d1 d1) e, _, _, rfl, rfl, ?_,
        (power8n_mul_sub (by omega)).symm⟩
      rw [placeEval, mul_add, power8n_mul_sub (by omega : min (min d1 d1) e ≤ d2),
        power8n_mul_sub (by omega : min (min d1 d1) e ≤ d1), add_comm]
    | pair e1 e2 =>
      refine ⟨min (min (min d1 d2) e1) e2, _, _, rfl, rfl, ?_, ?_⟩
      · rw [placeEval, mul_add,
          power8n_mul_sub (by omega : min (min (min d1 d2) e1) e2 ≤ d2),
          power8n_mul_sub (by omega : min (min (min d1 d2) e1) e2 ≤ d1), add_comm]
      · rw [placeEval, mul_add,
          power8n_mul_sub (by omega : min (min (min d1 d2) e1) e2 ≤ e2),
          power8n_mul_sub (by omega : min (min (min d1 d2) e1) e2 ≤ e1), add_comm]

/-- **C3.** In poly-hull pass 2, for every adjacent pair of deferred
carriers with tags among `Single`/`Pair` (satisfying the pipeline invariant
`deferredTag`, in particular `d1 < d2` for `Pair` tags — under which the
source's `min(d1, d1, e)` in the `(Pair, Single)` branch coincides with the
minimum of all length exponents), the code's `min` equals the spec's
all-exponent minimum in every branch, and whenever
`P ≡ init·placeEval l (mod g)` and `Q ≡ init·placeEval m (mod g)` the
combination `p_fac·Q + q_fac·P` is a multiple of `g` — so GCD-ing it into
the hull preserves divisibility by the true generator. -/
theorem C3_pair_cancellation (l m : InitPlace) (hl : deferredTag l)
    (hm : deferredTag m) :
    codeMin l m = specMin l m ∧
    ∀ g i p q : F2X, g ∣ p - i * placeEval l → g ∣ q - i * placeEval m →
      ∃ c, pairCombine p q l m = some c ∧ g ∣ c := by
  constructor
  · cases l with
    | place_none => exact absurd hl id
    | single d =>
      cases m with
      | place_none => exact absurd hm id
      | single e => rfl
      | pair e1 e2 =>
        simp only [codeMin, specMin, Option.some.injEq]
        omega
    | pair d1 d2 =>
      have hd : d1 < d2 := hl
      cases m with
      | place_none => exact absurd hm id
      | single e =>
        simp only [codeMin, specMin, Option.some.injEq]
        omega
      | pair e1 e2 =>
        simp only [codeMin, specMin, Option.some.injEq]
        omega
  · intro g i p q hp hq
    obtain ⟨m0, fp, fq, _, hfacs, hL, hM⟩ := pairFacs_eval l m hl hm
    refine ⟨fp * q + fq * p, by rw [pairCombine, hfacs]; rfl, ?_⟩
    have hkey : fp * q + fq * p =
        fp * (q - i * placeEval m) + fq * (p - i * placeEval l) +
          (i * power8n m0 * fp * fq + i * power8n m0 * fp * fq) := by
      rw [hL, hM]
      ring
    rw [hkey, F2X.add_self, add_zero]
    exact dvd_add (Dvd.dvd.mul_left hq fp) (Dvd.dvd.mul_left hp fq)

/-- Witness for C3 at the concrete deferred tags `Single 1` and
`Pair 2 3`. -/
theorem C3_witness :
    deferredTag (InitPlace.single 1) ∧ deferredTag (InitPlace.pair 2 3) ∧
    (codeMin (InitPlace.single 1) (InitPlace.pair 2 3) =
        specMin (InitPlace.single 1) (InitPlace.pair 2 3) ∧
      ∀ g i p q : F2X,
        g ∣ p - i * placeEval (InitPlace.single 1) →
        g ∣ q - i * placeEval (InitPlace.pair 2 3) →
        ∃ c, pairCombine p q (InitPlace.single 1) (InitPlace.pair 2 3) =
            some c ∧ g ∣ c) :=
  ⟨trivial, Nat.lt_of_sub_eq_succ rfl,
    C3_pair_cancellation (InitPlace.single 1) (InitPlace.pair 2 3) trivial
      (Nat.lt_of_sub_eq_succ rfl)⟩

/-! ### Highest-power GCD (C8) -/

/-- One step of `highest_power_gcd`'s loop (rev.rs lines 737-741):
`cur.sqr(); cur.gcd_to(a)`, i.e. `cur ← gcd(cur², A)`. -/
noncomputable def hpgStep (a cur : F2X) : F2X := EuclideanDomain.gcd (cur * cur) a

/-- The while loop of `highest_power_gcd`, with fuel: runs until `cur` is a
fixed point of the step; `none` only if the fuel is exhausted first. -/
noncomputable def hpgLoop (a : F2X) : Nat → F2X → Option F2X
  | 0, _ => Option.none
  | fuel + 1, cur =>
      if hpgStep a cur = cur then some cur else hpgLoop a fuel (hpgStep a cur)

/-- `highest_power_gcd` (rev.rs lines 733-743): iterate `cur ← gcd(cur², A)`
from `cur = B % A` until `cur` stops changing.  (The source's initial
comparison against `prev = 1` coincides with the fixed-point test because
`1` is a fixed point of the step: `gcd(1, A) = 1`.)  The fuel
`natDegree A + 2` bounds the number of iterations; sufficiency is proved in
`C8_highest_power_gcd`. -/
noncomputable def highest_power_gcd (a b : F2X) : Option F2X :=
  hpgLoop a (a.natDegree + 2) (b % a)

/-- The iterates of the step function. -/
noncomputable def stepIter (a c : F2X) : Nat → F2X
  | 0 => c
  | n + 1 => hpgStep a (stepIter a c n)

theorem gcd_congr_left {a x y : F2X} (h : a ∣ x - y) :
    EuclideanDomain.gcd x a = EuclideanDomain.gcd y a := by
  have h1 : EuclideanDomain.gcd x a ∣ y := by
    have hxy : EuclideanDomain.gcd x a ∣ x - y :=
      dvd_trans (EuclideanDomain.gcd_dvd_right x a) h
    have hx : EuclideanDomain.gcd x a ∣ x := EuclideanDomain.gcd_dvd_left x a
    simpa using dvd_sub hx hxy
  have h2 : EuclideanDomain.gcd y a ∣ x := by
    have hxy : EuclideanDomain.gcd y a ∣ x - y :=
      dvd_trans (EuclideanDomain.gcd_dvd_right y a) h
    have hy : EuclideanDomain.gcd y a ∣ y := EuclideanDomain.gcd_dvd_left y a
    have := dvd_add hxy hy
    simpa using this
  exact F2X.dvd_antisymm
    (EuclideanDomain.dvd_gcd h1 (EuclideanDomain.gcd_dvd_right x a))
    (EuclideanDomain.dvd_gcd h2 (EuclideanDomain.gcd_dvd_right y a))

/-- `gcd(x², a)` divides `gcd(x, a)²`, by the Bézout identity. -/
theorem gcd_sq_dvd_sq (x a : F2X) :
    EuclideanDomain.gcd (x * x) a ∣
      EuclideanDomain.gcd x a * EuclideanDomain.gcd x a := by
  have hb := EuclideanDomain.gcd_eq_gcd_ab x a
  have key : EuclideanDomain.gcd x a * EuclideanDomain.gcd x a =
      x * x * (EuclideanDomain.gcdA x a * EuclideanDomain.gcdA x a) +
        a * (2 * x * EuclideanDomain.gcdA x a * EuclideanDomain.gcdB x a +
          a * (EuclideanDomain.gcdB x a * EuclideanDomain.gcdB x a)) := by
    rw [hb]; ring
  rw [key]
  exact dvd_add (Dvd.dvd.mul_right (EuclideanDomain.gcd_dvd_left _ _) _)
    (Dvd.dvd.mul_right (EuclideanDomain.gcd_dvd_right _ _) _)

/-- Squaring inside the GCD: `gcd(gcd(x,a)², a) = gcd(x², a)`. -/
theorem gcd_gcd_sq (x a : F2X) :
    EuclideanDomain.gcd (EuclideanDomain.gcd x a * EuclideanDomain.gcd x a) a =
      EuclideanDomain.gcd (x * x) a := by
  refine F2X.dvd_antisymm ?_ ?_
  · refine EuclideanDomain.dvd_gcd ?_ (EuclideanDomain.gcd_dvd_right _ _)
    exact dvd_trans (EuclideanDomain.gcd_dvd_left _ _)
      (mul_dvd_mul (EuclideanDomain.gcd_dvd_left x a)
        (EuclideanDomain.gcd_dvd_left x a))
  · exact EuclideanDomain.dvd_gcd (gcd_sq_dvd_sq x a)
      (EuclideanDomain.gcd_dvd_right _ _)

/-- Reducing mod `a` before squaring does not change the GCD with `a`. -/
theorem gcd_mod_sq (a b : F2X) :
    EuclideanDomain.gcd (b % a * (b % a)) a = EuclideanDomain.gcd (b * b) a := by
  refine gcd_congr_left ⟨a * (b / a) * (b / a) - 2 * b * (b / a), ?_⟩
  rw [EuclideanDomain.mod_eq_sub_mul_div]
  ring

/-- The iterates from `B % A` compute `gcd(B^(2^n), A)` for `n ≥ 1`. -/
theorem stepIter_eq_gcd_pow (a b : F2X) :
    ∀ n, 1 ≤ n → stepIter a (b % a) n = EuclideanDomain.gcd (b ^ 2 ^ n) a := by
  intro n hn
  induction n with
  | zero => omega
  | succ n ih =>
    by_cases hn1 : 1 ≤ n
    · have hrec := ih hn1
      show hpgStep a (stepIter a (b % a) n) = _
      rw [hrec, hpgStep, gcd_gcd_sq]
      congr 1
      rw [← pow_add]
      congr 1
      rw [pow_succ]
      omega
    · have hn0 : n = 0 := by omega
      subst hn0
      show hpgStep a (b % a) = _
      rw [hpgStep, gcd_mod_sq]
      congr 1
      rw [pow_one, pow_two]

theorem hpgStep_dvd (a c : F2X) : hpgStep a c ∣ a :=
  EuclideanDomain.gcd_dvd_right _ _

theorem dvd_hpgStep {a c : F2X} (hc : c ∣ a) : c ∣ hpgStep a c :=
  EuclideanDomain.dvd_gcd (dvd_mul_right c c) hc

theorem hpgStep_ne_zero {a : F2X} (ha : a ≠ 0) (c : F2X) : hpgStep a c ≠ 0 := by
  intro h
  exact ha (EuclideanDomain.gcd_eq_zero_iff.mp h).2

/-- In 𝔽₂[X] a proper divisor has strictly smaller degree. -/
theorem natDegree_lt_of_dvd_ne {x y : F2X} (hxy : x ∣ y) (hx : x ≠ 0)
    (hy : y ≠ 0) (hne : x ≠ y) : x.natDegree < y.natDegree := by
  obtain ⟨t, rfl⟩ := hxy
  have ht : t ≠ 0 := by rintro rfl; simp at hy
  have htd : 1 ≤ t.natDegree := by
    by_contra hlt
    have ht0 : t.natDegree = 0 := by omega
    obtain ⟨r, hr⟩ := Polynomial.natDegree_eq_zero.mp ht0
    have hru : IsUnit r := by
      refine isUnit_iff_ne_zero.mpr ?_
      rintro rfl
      exact ht (by rw [← hr, map_zero])
    have ht1 : t = 1 := F2X.isUnit_eq_one (hr ▸ Polynomial.isUnit_C.mpr hru)
    have hxt : x * t = x := by rw [ht1, mul_one]
    exact hne hxt.symm
  rw [Polynomial.natDegree_mul hx ht]
  omega

/-- The loop reaches a fixed point within the fuel, along divisors of `a`. -/
theorem hpgLoop_isSome {a : F2X} (ha : a ≠ 0) :
    ∀ fuel c, c ∣ a → c ≠ 0 → a.natDegree + 1 - c.natDegree ≤ fuel →
      ∃ r, hpgLoop a fuel c = some r := by
  intro fuel
  induction fuel with
  | zero =>
    intro c hdvd hc hfuel
    have := Polynomial.natDegree_le_of_dvd hdvd ha
    omega
  | succ fuel ih =>
    intro c hdvd hc hfuel
    by_cases hfix : hpgStep a c = c
    · exact ⟨c, by rw [hpgLoop, if_pos hfix]⟩
    · have hdvd' : hpgStep a c ∣ a := hpgStep_dvd a c
      have hne' : hpgStep a c ≠ 0 := hpgStep_ne_zero ha c
      have hlt : c.natDegree < (hpgStep a c).natDegree :=
        natDegree_lt_of_dvd_ne (dvd_hpgStep hdvd) hc hne' (fun h => hfix h.symm)
      obtain ⟨r, hr⟩ := ih (hpgStep a c) hdvd' hne' (by omega)
      exact ⟨r, by rw [hpgLoop, if_neg hfix, hr]⟩

/-- Restarting the iterates one step in. -/
theorem stepIter_shift (a c : F2X) :
    ∀ k, stepIter a (hpgStep a c) k = stepIter a c (k + 1) := by
  intro k
  induction k with
  | zero => rfl
  | succ k ih =>
    show hpgStep a (stepIter a (hpgStep a c) k) = _
    rw [ih]
    rfl

/-- A successful loop run ends in a fixed point reachable by the iterates. -/
theorem hpgLoop_fixed {a : F2X} :
    ∀ fuel c r, hpgLoop a fuel c = some r →
      hpgStep a r = r ∧ ∃ k, stepIter a c k = r := by
  intro fuel
  induction fuel with
  | zero =>
    intro c r h
    rw [hpgLoop] at h
    simp at h
  | succ fuel ih =>
    intro c r h
    rw [hpgLoop] at h
    by_cases hfix : hpgStep a c = c
    · rw [if_pos hfix] at h
      obtain rfl : c = r := by simpa using h
      exact ⟨hfix, 0, rfl⟩
    · rw [if_neg hfix] at h
      obtain ⟨hfixr, k, hk⟩ := ih (hpgStep a c) r h
      exact ⟨hfixr, k + 1, by rw [← stepIter_shift, hk]⟩

/-- A fixed point, once reached, persists. -/
theorem stepIter_stable {a c r : F2X} (hfix : hpgStep a r = r) {k : Nat}
    (hk : stepIter a c k = r) : ∀ j, k ≤ j → stepIter a c j = r := by
  intro j hj
  induction j with
  | zero =>
    have : k = 0 := by omega
    exact this ▸ hk
  | succ j ih =>
    by_cases hkj : k ≤ j
    · show hpgStep a (stepIter a c j) = r
      rw [ih hkj, hfix]
    · have : k = j + 1 := by omega
      exact this ▸ hk

/-- **C8.** For every pair of 𝔽₂[X] polynomials `A`, `B` with `A ≠ 0`, the
iteration `cur ← gcd(cur², A)` starting from `cur = B % A` reaches a fixed
point within `natDegree A + 2` steps (the loop returns `some`), and the
returned value equals `gcd(B^n, A)` for all sufficiently large `n` — the
limit `lim_{n→∞} gcd(A, B^n)`. -/
theorem C8_highest_power_gcd (a b : F2X) (ha : a ≠ 0) :
    ∃ r, highest_power_gcd a b = some r ∧ hpgStep a r = r ∧
      ∃ M, 1 ≤ M ∧ ∀ n, M ≤ n → EuclideanDomain.gcd (b ^ n) a = r := by
  have hsome : ∃ r, highest_power_gcd a b = some r := by
    rw [highest_power_gcd]
    by_cases hfix : hpgStep a (b % a) = b % a
    · exact ⟨b % a, by rw [hpgLoop, if_pos hfix]⟩
    · have hdvd : hpgStep a (b % a) ∣ a := hpgStep_dvd a (b % a)
      have hne : hpgStep a (b % a) ≠ 0 := hpgStep_ne_zero ha (b % a)
      obtain ⟨r, hr⟩ := hpgLoop_isSome ha (a.natDegree + 1) (hpgStep a (b % a))
        hdvd hne (by omega)
      exact ⟨r, by rw [hpgLoop, if_neg hfix, hr]⟩
  obtain ⟨r, hr⟩ := hsome
  obtain ⟨hfix, k, hk⟩ := hpgLoop_fixed _ _ _ hr
  have hstable := stepIter_stable hfix hk
  have hN : ∀ m, max k 1 ≤ m → r = EuclideanDomain.gcd (b ^ 2 ^ m) a := by
    intro m hm
    rw [← stepIter_eq_gcd_pow a b m (le_trans (le_max_right k 1) hm)]
    exact (hstable m (le_trans (le_max_left k 1) hm)).symm
  refine ⟨r, hr, hfix, 2 ^ max k 1, Nat.one_le_two_pow, ?_⟩
  intro n hn
  have h1 : r ∣ EuclideanDomain.gcd (b ^ n) a := by
    rw [hN (max k 1) (le_refl _)]
    exact EuclideanDomain.dvd_gcd
      (dvd_trans (EuclideanDomain.gcd_dvd_left _ _) (pow_dvd_pow b hn))
      (EuclideanDomain.gcd_dvd_right _ _)
  have hn2 : n ≤ 2 ^ max n (max k 1) :=
    le_trans (le_of_lt (Nat.lt_two_pow n))
      (Nat.pow_le_pow_right (by omega) (le_max_left n (max k 1)))
  have h2 : EuclideanDomain.gcd (b ^ n) a ∣ r := by
    rw [hN (max n (max k 1)) (le_max_right n (max k 1))]
    exact EuclideanDomain.dvd_gcd
      (dvd_trans (EuclideanDomain.gcd_dvd_left _ _) (pow_dvd_pow b hn2))
      (EuclideanDomain.gcd_dvd_right _ _)
  exact F2X.dvd_antisymm h2 h1

/-! ### C5 groundwork: GCD identities and valuations over 𝔽₂[X] -/

theorem gcdF_mul_left (k x y : F2X) :
    EuclideanDomain.gcd (k * x) (k * y) = k * EuclideanDomain.gcd x y := by
  refine F2X.dvd_antisymm ?_ ?_
  · have hb := EuclideanDomain.gcd_eq_gcd_ab x y
    have hk : k * EuclideanDomain.gcd x y =
        k * x * EuclideanDomain.gcdA x y + k * y * EuclideanDomain.gcdB x y := by
      rw [hb]; ring
    rw [hk]
    exact dvd_add (Dvd.dvd.mul_right (EuclideanDomain.gcd_dvd_left _ _) _)
      (Dvd.dvd.mul_right (EuclideanDomain.gcd_dvd_right _ _) _)
  · exact EuclideanDomain.dvd_gcd
      (mul_dvd_mul_left k (EuclideanDomain.gcd_dvd_left x y))
      (mul_dvd_mul_left k (EuclideanDomain.gcd_dvd_right x y))

theorem F2X.gcd_ne_zero_of_right {x y : F2X} (hy : y ≠ 0) :
    EuclideanDomain.gcd x y ≠ 0 := by
  intro h
  exact hy (EuclideanDomain.gcd_eq_zero_iff.mp h).2

/-- Dividing out the GCD leaves coprime parts. -/
theorem gcd_div_gcd_coprime (x y : F2X) (hy : y ≠ 0) :
    EuclideanDomain.gcd (x / EuclideanDomain.gcd x y)
      (y / EuclideanDomain.gcd x y) = 1 := by
  set g := EuclideanDomain.gcd x y with hg
  have hg0 : g ≠ 0 := F2X.gcd_ne_zero_of_right hy
  set d := EuclideanDomain.gcd (x / g) (y / g) with hd
  have hdx : g * d ∣ x := by
    have h1 : g * d ∣ g * (x / g) :=
      mul_dvd_mul_left g (EuclideanDomain.gcd_dvd_left _ _)
    rwa [EuclideanDomain.mul_div_cancel' hg0 (EuclideanDomain.gcd_dvd_left x y)] at h1
  have hdy : g * d ∣ y := by
    have h1 : g * d ∣ g * (y / g) :=
      mul_dvd_mul_left g (EuclideanDomain.gcd_dvd_right _ _)
    rwa [EuclideanDomain.mul_div_cancel' hg0 (EuclideanDomain.gcd_dvd_right x y)] at h1
  have hdg : g * d ∣ g * 1 := by
    rw [mul_one]
    exact EuclideanDomain.dvd_gcd hdx hdy
  exact F2X.isUnit_eq_one (isUnit_of_dvd_one ((mul_dvd_mul_iff_left hg0).mp hdg))

/-- The p-adic valuation on 𝔽₂[X], as extended multiplicity. -/
noncomputable def vF (p x : F2X) : ℕ∞ := emultiplicity p x

theorem vF_finite {p x : F2X} (hp : Prime p) (hx : x ≠ 0) :
    multiplicity.Finite p x :=
  multiplicity.finite_of_not_isUnit hp.not_unit hx

theorem vF_ne_top {p x : F2X} (hp : Prime p) (hx : x ≠ 0) : vF p x ≠ ⊤ := by
  rw [vF, Ne, emultiplicity_eq_top, not_not]
  exact vF_finite hp hx

theorem vF_mul {p : F2X} (hp : Prime p) (x y : F2X) :
    vF p (x * y) = vF p x + vF p y := emultiplicity_mul hp

theorem vF_dvd_mono {p x y : F2X} (h : x ∣ y) : vF p x ≤ vF p y :=
  emultiplicity_le_emultiplicity_of_dvd_right h

theorem enat_le_of_forall_nat_le {x y : ℕ∞} (h : ∀ k : ℕ, ↑k ≤ x → ↑k ≤ y) :
    x ≤ y := by
  cases y with
  | top => exact le_top
  | coe n =>
    cases x with
    | top =>
      have h1 := h (n + 1) le_top
      have h2 : n + 1 ≤ n := by exact_mod_cast h1
      omega
    | coe m => exact h m le_rfl

theorem vF_gcd {p : F2X} (_hp : Prime p) (x y : F2X) :
    vF p (EuclideanDomain.gcd x y) = min (vF p x) (vF p y) := by
  refine le_antisymm (le_min (vF_dvd_mono (EuclideanDomain.gcd_dvd_left x y))
    (vF_dvd_mono (EuclideanDomain.gcd_dvd_right x y))) ?_
  refine enat_le_of_forall_nat_le (fun k hk => ?_)
  have hkx : p ^ k ∣ x := pow_dvd_iff_le_emultiplicity.mpr (le_trans hk (min_le_left _ _))
  have hky : p ^ k ∣ y := pow_dvd_iff_le_emultiplicity.mpr (le_trans hk (min_le_right _ _))
  exact pow_dvd_iff_le_emultiplicity.mp (EuclideanDomain.dvd_gcd hkx hky)

theorem vF_one_le_of_dvd {p x : F2X} (h : p ∣ x) : 1 ≤ vF p x := by
  rw [ENat.one_le_iff_ne_zero]
  intro h0
  have hpos := dvd_iff_emultiplicity_pos.mpr h
  rw [vF] at h0
  rw [h0] at hpos
  exact lt_irrefl _ hpos

theorem F2X.dvd_iff_vF_le {x y : F2X} :
    x ∣ y ↔ ∀ p : F2X, Prime p → vF p x ≤ vF p y := by
  constructor
  · exact fun h p _ => vF_dvd_mono h
  · intro h
    by_cases hx : x = 0
    · subst hx
      by_cases hy : y = 0
      · simp [hy]
      · exfalso
        have hX := h Polynomial.X Polynomial.prime_X
        rw [vF, vF, emultiplicity_zero, top_le_iff, emultiplicity_eq_top] at hX
        exact hX (vF_finite Polynomial.prime_X hy)
    · by_cases hy : y = 0
      · simp [hy]
      · by_contra hndvd
        obtain ⟨t, ht⟩ := EuclideanDomain.gcd_dvd_left x y
        have ht0 : t ≠ 0 := by
          rintro rfl
          rw [mul_zero] at ht
          exact hx ht
        have htu : ¬IsUnit t := by
          intro hu
          rw [F2X.isUnit_eq_one hu, mul_one] at ht
          exact hndvd (ht ▸ EuclideanDomain.gcd_dvd_right x y)
        obtain ⟨q, hqirr, hqdvd⟩ := WfDvdMonoid.exists_irreducible_factor htu ht0
        have hq : Prime q := UniqueFactorizationMonoid.irreducible_iff_prime.mp hqirr
        have hvx : vF q x = vF q (EuclideanDomain.gcd x y) + vF q t := by
          rw [← vF_mul hq, ← ht]
        have hmin : vF q (EuclideanDomain.gcd x y) = vF q x :=
          (vF_gcd hq x y).trans (min_eq_left (h q hq))
        have h1t : 1 ≤ vF q t := vF_one_le_of_dvd hqdvd
        rw [hmin] at hvx
        have hcontra : vF q x + 1 ≤ vF q x := by
          calc vF q x + 1 ≤ vF q x + vF q t := add_le_add_left h1t _
            _ = vF q x := hvx.symm
        rw [ENat.add_one_le_iff (vF_ne_top hq hx)] at hcontra
        exact lt_irrefl _ hcontra

/-- The ultrametric bound: if `g ∣ x - y` and `v_p x < v_p y` then
`v_p g ≤ v_p x`. -/
theorem vF_le_of_lt_of_dvd_sub {p g x y : F2X} (h : g ∣ x - y)
    (hlt : vF p x < vF p y) : vF p g ≤ vF p x := by
  have hmin : min (vF p y) (vF p (x - y)) ≤ vF p x := by
    have hxe : y + (x - y) = x := by ring
    have h1 : min (emultiplicity p y) (emultiplicity p (x - y)) ≤
        emultiplicity p (y + (x - y)) := min_le_emultiplicity_add
    rw [hxe] at h1
    exact h1
  rcases le_or_lt (vF p y) (vF p (x - y)) with hc | hc
  · rw [min_eq_left hc] at hmin
    exact absurd (lt_of_lt_of_le hlt hmin) (lt_irrefl _)
  · rw [min_eq_right (le_of_lt hc)] at hmin
    exact le_trans (vF_dvd_mono h) hmin

theorem prime_natDegree_pos {p : F2X} (hp : Prime p) : 1 ≤ p.natDegree := by
  by_contra hlt
  have h0 : p.natDegree = 0 := by omega
  obtain ⟨r, hr⟩ := Polynomial.natDegree_eq_zero.mp h0
  have hr0 : r ≠ 0 := by
    rintro rfl
    rw [map_zero] at hr
    exact hp.ne_zero hr.symm
  exact hp.not_unit (hr ▸ Polynomial.isUnit_C.mpr (isUnit_iff_ne_zero.mpr hr0))

theorem vF_le_natDegree {p x : F2X} (hp : Prime p) (hx : x ≠ 0) :
    vF p x ≤ (x.natDegree : ℕ∞) := by
  refine enat_le_of_forall_nat_le (fun k hk => ?_)
  have hdvd : p ^ k ∣ x := pow_dvd_iff_le_emultiplicity.mpr hk
  have hdeg : (p ^ k).natDegree ≤ x.natDegree :=
    Polynomial.natDegree_le_of_dvd hdvd hx
  rw [Polynomial.natDegree_pow] at hdeg
  have h1 := prime_natDegree_pos hp
  have : k ≤ x.natDegree := by nlinarith
  exact_mod_cast this

/-! ### The init solver: `PrefactorMod`, `MemoPower`, `find_init` (C5) -/

/-- `PrefactorMod` (rev.rs lines 549-553): the solution set
`{S : unknown·S ≡ unknown·possible mod hull}`. -/
structure PfmP where
  unknown : F2X
  possible : F2X
  hull : F2X

/-- `PrefactorMod::empty` (rev.rs lines 556-562). -/
noncomputable def pfmEmpty : PfmP := ⟨1, 0, 1⟩

/-- `PrefactorMod::valid` (rev.rs lines 669-671). -/
noncomputable def pfmValid (s : PfmP) : F2X := s.hull / s.unknown

/-- `PrefactorMod::update_hull` (rev.rs lines 614-621). -/
noncomputable def pfmUpdateHull (s : PfmP) (h : F2X) : PfmP :=
  if s.hull = h then s
  else
    let u := EuclideanDomain.gcd s.unknown h
    ⟨u, s.possible % (h / u), h⟩

/-- The level/cache state of `MemoPower` (rev.rs lines 503-508); `initFac`
is returned by value where the source stores it. -/
structure MemoS where
  prevPower : Nat
  prevPPoly : F2X

/-- `MemoPower::update_init_fac`'s inner `update_power` (rev.rs lines
519-528): panics (`none`) on a descending level, otherwise advances the
cached power by `X^(8·Δ) mod hull`. -/
noncomputable def memoUpdatePower (hull : F2X) (s : MemoS) (d : Nat) :
    Option (F2X × MemoS) :=
  if d < s.prevPower then Option.none
  else
    let pd := Polynomial.X ^ (8 * (d - s.prevPower)) % hull
    let np := s.prevPPoly * pd % hull
    some (np, ⟨d, np⟩)

/-- `MemoPower::update_init_fac` (rev.rs lines 518-539): evaluate a tag
modulo the hull, reusing the cached previous power. -/
noncomputable def memoUpdateInitFac (hull : F2X) (s : MemoS) (pl : InitPlace) :
    Option (F2X × MemoS) :=
  match pl with
  | InitPlace.place_none => some (0, s)
  | InitPlace.single d => memoUpdatePower hull s d
  | InitPlace.pair d1 d2 => do
      let r1 ← memoUpdatePower hull s d1
      let r2 ← memoUpdatePower hull r1.2 d2
      pure (r1.1 + r2.1, r2.2)

/-- `MemoPower::update_hull` (rev.rs lines 543-546). -/
noncomputable def memoUpdateHull (s : MemoS) (hull : F2X) : MemoS :=
  ⟨s.prevPower, s.prevPPoly % hull⟩

/-- `inverse_fixed` (rev.rs lines 747-759): divide out the common factor,
then invert in the reduced quotient ring.  NTL's modular division fails on a
non-invertible divisor; that failure is modelled as `none`.  The inverse is
realised through the Bézout coefficient. -/
noncomputable def inverse_fixed_poly (a b common hull : F2X) : Option F2X :=
  let a2 := a / common
  let b2 := b / common
  let module := hull / common
  if module = 1 then some 0
  else if EuclideanDomain.gcd b2 module = 1 then
    some (a2 * EuclideanDomain.gcdA b2 module % module)
  else Option.none

/-- Result of `PrefactorMod::new_file`: either the hull collapsed (the
source returns `None` and `find_init` gives up) or a new `PrefactorMod`
with the possibly-tightened hull and re-reduced `MemoPower`. -/
inductive NFRes
  | collapse (hull : F2X)
  | ok (pfm : PfmP) (hull : F2X) (ms : MemoS)

/-- `PrefactorMod::new_file` (rev.rs lines 577-612): reduce the carrier,
take the `gcd`-floats, and when the power part does not divide the file
part, repair the hull via the highest-power GCD before computing the
modular inverse.  The outer `Option` is an NTL-level failure (modular
division by a non-invertible element, or the fuelled highest-power GCD
running out — both shown unreachable under the solver invariants). -/
noncomputable def new_file_poly (file0 initFac : F2X) (ms : MemoS)
    (hull : F2X) : Option NFRes :=
  let file := file0 % hull
  let file_float := EuclideanDomain.gcd file hull
  let power_float := EuclideanDomain.gcd initFac hull
  let common_float := EuclideanDomain.gcd power_float file_float
  let discrepancy := power_float / common_float
  if discrepancy = 1 then
    (inverse_fixed_poly file initFac common_float hull).map
      (fun poss => NFRes.ok ⟨common_float, poss, hull⟩ hull ms)
  else
    match highest_power_gcd hull discrepancy with
    | Option.none => Option.none
    | some hull_part =>
      let file_part := EuclideanDomain.gcd file_float hull_part
      let hull2 := hull / hull_part * file_part
      if hull2.degree ≤ 0 then some (NFRes.collapse hull2)
      else
        (inverse_fixed_poly file initFac common_float hull2).map
          (fun poss =>
            NFRes.ok ⟨common_float, poss, hull2⟩ hull2 (memoUpdateHull ms hull2))

/-- `PrefactorMod::adjust_compability` (rev.rs lines 657-667): make the two
solution sets agree modulo the common factor of their valid moduli,
tightening the hull if they do not. -/
noncomputable def adjust_compability (s o : PfmP) (hull : F2X) :
    PfmP × PfmP × F2X :=
  let common_valid := EuclideanDomain.gcd (pfmValid s) (pfmValid o)
  let actual_valid := EuclideanDomain.gcd (s.possible + o.possible) common_valid
  let hull2 := hull / common_valid * actual_valid
  if hull2.degree ≤ 0 then (s, o, hull2)
  else (pfmUpdateHull s hull2, pfmUpdateHull o hull2, hull2)

/-- `PrefactorMod::merge` (rev.rs lines 625-652): the Chinese remainder
theorem for non-coprime ideals; `none` when the hull collapses. -/
noncomputable def pfm_merge (s o : PfmP) (hull : F2X) : Option (PfmP × F2X) :=
  let s1 := pfmUpdateHull s hull
  let o1 := pfmUpdateHull o hull
  let r := adjust_compability s1 o1 hull
  let s2 := r.1
  let o2 := r.2.1
  let hull2 := r.2.2
  if hull2.degree ≤ 0 then Option.none
  else
    let sv := pfmValid s2
    let ov := pfmValid o2
    let cv := EuclideanDomain.gcd sv ov
    let sf := EuclideanDomain.gcdA sv ov * sv * o2.possible
    let of2 := EuclideanDomain.gcdB sv ov * ov * s2.possible
    some (⟨EuclideanDomain.gcd s2.unknown o2.unknown, (sf + of2) / cv, hull2⟩,
      hull2)

/-- The loop of `find_init` (rev.rs lines 719-729), threading the running
`PrefactorMod`, the `MemoPower` state and the mutable hull. -/
noncomputable def fiLoop : PfmP → MemoS → F2X → List (F2X × InitPlace) →
    Option (PfmP × F2X)
  | ret, _, hull, [] => some (ret, hull)
  | ret, ms, hull, (p, l) :: rest => do
      let r1 ← memoUpdateInitFac hull ms l
      let nr ← new_file_poly p r1.1 r1.2 hull
      match nr with
      | NFRes.collapse h2 => some (pfmEmpty, h2)
      | NFRes.ok fs hull2 ms2 =>
          match pfm_merge ret fs hull2 with
          | Option.none => some (pfmEmpty, hull2)
          | some (ret2, hull3) => fiLoop ret2 ms2 hull3 rest

/-- `find_init` (rev.rs lines 709-731) with `init` unknown: start from the
full solution set `(hull, 0, hull)` and fold every carrier in.  Returns the
final `PrefactorMod` and the final hull. -/
noncomputable def find_init_poly (hull0 : F2X)
    (polys : List (F2X × InitPlace)) : Option (PfmP × F2X) :=
  if hull0.degree ≤ 0 then some (pfmEmpty, hull0)
  else fiLoop ⟨hull0, 0, hull0⟩ ⟨0, 1 % hull0⟩ hull0 polys

/-! ### Solver invariants: update-hull and merge preserve the init coset -/

/-- The solver invariant for a `PrefactorMod` against the true generator
`g` and the true `init` `i`: its hull is the current hull, its `unknown`
divides the hull, and `unknown · init ≡ unknown · possible (mod g)`. -/
def pfmInv (g i : F2X) (s : PfmP) (hull : F2X) : Prop :=
  s.hull = hull ∧ s.unknown ∣ hull ∧ g ∣ s.unknown * (i - s.possible)

theorem mul_div_cancel_right' {a b : F2X} (ha : a ≠ 0) (h : a ∣ b) :
    b / a * a = b := by
  rw [mul_comm]
  exact EuclideanDomain.mul_div_cancel' ha h

theorem div_dvd_self' {a b : F2X} (h : a ∣ b) : b / a ∣ b := by
  by_cases ha : a = 0
  · subst ha
    have hb : b = 0 := zero_dvd_iff.mp h
    simp [hb]
  · exact ⟨a, (mul_div_cancel_right' ha h).symm⟩

theorem dvd_div_of_mul_dvd' {a b c : F2X} (hb : b ≠ 0) (hbc : b ∣ c)
    (h : a * b ∣ c) : a ∣ c / b := by
  have hc : c = b * (c / b) := (EuclideanDomain.mul_div_cancel' hb hbc).symm
  rw [hc] at h
  have h2 : b * a ∣ b * (c / b) := by rwa [mul_comm b a]
  exact (mul_dvd_mul_iff_left hb).mp h2

theorem gcdF_mul_right (x y k : F2X) :
    EuclideanDomain.gcd (x * k) (y * k) = EuclideanDomain.gcd x y * k := by
  rw [mul_comm x k, mul_comm y k, gcdF_mul_left, mul_comm]

/-- `gcd (gcd u h) g = gcd u g` whenever `g ∣ h`. -/
theorem gcd_gcd_absorb {u h g : F2X} (hg : g ∣ h) :
    EuclideanDomain.gcd (EuclideanDomain.gcd u h) g = EuclideanDomain.gcd u g := by
  refine F2X.dvd_antisymm ?_ ?_
  · exact EuclideanDomain.dvd_gcd
      (dvd_trans (EuclideanDomain.gcd_dvd_left _ _) (EuclideanDomain.gcd_dvd_left _ _))
      (EuclideanDomain.gcd_dvd_right _ _)
  · exact EuclideanDomain.dvd_gcd
      (EuclideanDomain.dvd_gcd (EuclideanDomain.gcd_dvd_left _ _)
        (dvd_trans (EuclideanDomain.gcd_dvd_right _ _) hg))
      (EuclideanDomain.gcd_dvd_right _ _)

/-- From `g ∣ u·z` conclude `g ∣ gcd u w · z` whenever `g ∣ w·z`. -/
theorem g_dvd_gcd_mul {g u w z : F2X} (hu : g ∣ u * z) (hw : g ∣ w * z) :
    g ∣ EuclideanDomain.gcd u w * z := by
  have h1 : g ∣ z * u := by rwa [mul_comm] at hu
  have h2 : g ∣ z * w := by rwa [mul_comm] at hw
  have h3 := EuclideanDomain.dvd_gcd h1 h2
  rw [gcdF_mul_left] at h3
  rwa [mul_comm] at h3

/-- Shrinking the hull to a multiple of `g` preserves the solver
invariant. -/
theorem pfmUpdateHull_inv {g i : F2X} {s : PfmP} {hull h2 : F2X}
    (hs : pfmInv g i s hull) (_hdvd : h2 ∣ hull) (hg : g ∣ h2)
    (h2ne : h2 ≠ 0) : pfmInv g i (pfmUpdateHull s h2) h2 := by
  obtain ⟨hsh, hsu, hsi⟩ := hs
  rw [pfmUpdateHull]
  by_cases hcase : s.hull = h2
  · rw [if_pos hcase]
    have hh : hull = h2 := hsh.symm.trans hcase
    exact ⟨hcase, hh ▸ hsu, hsi⟩
  · rw [if_neg hcase]
    set u := EuclideanDomain.gcd s.unknown h2 with hu
    have hu0 : u ≠ 0 := F2X.gcd_ne_zero_of_right h2ne
    have huh : u ∣ h2 := EuclideanDomain.gcd_dvd_right _ _
    refine ⟨rfl, huh, ?_⟩
    have hmod : s.possible % (h2 / u) =
        s.possible - h2 / u * (s.possible / (h2 / u)) := by
      rw [eq_sub_iff_add_eq, add_comm]
      exact EuclideanDomain.div_add_mod _ _
    have hexp : u * (i - s.possible % (h2 / u)) =
        u * (i - s.possible) + u * (h2 / u) * (s.possible / (h2 / u)) := by
      rw [hmod]
      ring
    rw [hexp, EuclideanDomain.mul_div_cancel' hu0 huh]
    refine dvd_add ?_ (Dvd.dvd.mul_right hg _)
    have hkey : g ∣ EuclideanDomain.gcd u g * (i - s.possible) := by
      rw [hu, gcd_gcd_absorb hg]
      exact g_dvd_gcd_mul hsi (Dvd.dvd.mul_right (dvd_refl g) _)
    exact dvd_trans hkey
      (mul_dvd_mul_right (EuclideanDomain.gcd_dvd_left u g) _)

theorem hull_deg_not_le {g h : F2X} (hg1 : 1 ≤ g.degree) (hgh : g ∣ h)
    (hne : h ≠ 0) : ¬ h.degree ≤ 0 := by
  intro hle
  have hdeg : g.degree ≤ h.degree := Polynomial.degree_le_of_dvd hgh hne
  have hcon : (1 : WithBot ℕ) ≤ 0 := le_trans hg1 (le_trans hdeg hle)
  exact absurd hcon (by decide)

theorem charTwoSum (i V1 V2 : F2X) : (i - V1) + (i - V2) = V1 + V2 := by
  have h := F2X.add_self i
  have h2 : (i - V1) + (i - V2) = (i + i) - (V1 + V2) := by ring
  rw [h2, h, zero_sub, CharTwo.neg_eq]

/-- The merge of two solution sets preserves the solver invariant and
keeps the hull a non-zero multiple of `g`. -/
theorem pfm_merge_inv {g i : F2X} {s o : PfmP} {hullOld hull : F2X}
    (hg1 : 1 ≤ g.degree) (hhull : hull ≠ 0) (hgh : g ∣ hull)
    (hs : pfmInv g i s hullOld) (hdvd : hull ∣ hullOld)
    (ho : pfmInv g i o hull) :
    ∃ ret hull2, pfm_merge s o hull = some (ret, hull2) ∧ hull2 ∣ hull ∧
      hull2 ≠ 0 ∧ g ∣ hull2 ∧ pfmInv g i ret hull2 := by
  have hs1 : pfmInv g i (pfmUpdateHull s hull) hull :=
    pfmUpdateHull_inv hs hdvd hgh hhull
  have ho1 : pfmInv g i (pfmUpdateHull o hull) hull :=
    pfmUpdateHull_inv ho (dvd_refl hull) hgh hhull
  set s1 := pfmUpdateHull s hull with hs1d
  set o1 := pfmUpdateHull o hull with ho1d
  obtain ⟨hs1h, hs1u, hs1i⟩ := hs1
  obtain ⟨ho1h, ho1u, ho1i⟩ := ho1
  have hU10 : s1.unknown ≠ 0 := by
    intro h0
    rw [h0] at hs1u
    exact hhull (zero_dvd_iff.mp hs1u)
  have hU20 : o1.unknown ≠ 0 := by
    intro h0
    rw [h0] at ho1u
    exact hhull (zero_dvd_iff.mp ho1u)
  have hval1 : pfmValid s1 = hull / s1.unknown := by rw [pfmValid, hs1h]
  have hval2 : pfmValid o1 = hull / o1.unknown := by rw [pfmValid, ho1h]
  set cv := EuclideanDomain.gcd (hull / s1.unknown) (hull / o1.unknown) with hcv
  have hdivo0 : hull / o1.unknown ≠ 0 := by
    intro h0
    have hmm := EuclideanDomain.mul_div_cancel' hU20 ho1u
    rw [h0, mul_zero] at hmm
    exact hhull hmm.symm
  have hdivs0 : hull / s1.unknown ≠ 0 := by
    intro h0
    have hmm := EuclideanDomain.mul_div_cancel' hU10 hs1u
    rw [h0, mul_zero] at hmm
    exact hhull hmm.symm
  have hcv0 : cv ≠ 0 := F2X.gcd_ne_zero_of_right hdivo0
  have hcvh : cv ∣ hull :=
    dvd_trans (EuclideanDomain.gcd_dvd_left _ _) (div_dvd_self' hs1u)
  set av := EuclideanDomain.gcd (s1.possible + o1.possible) cv with hav
  set hull2 := hull / cv * av with hhull2
  have hU1cv : s1.unknown ∣ hull / cv := by
    refine dvd_div_of_mul_dvd' hcv0 hcvh ?_
    have h1 : cv ∣ hull / s1.unknown := EuclideanDomain.gcd_dvd_left _ _
    have h2 : s1.unknown * cv ∣ s1.unknown * (hull / s1.unknown) :=
      mul_dvd_mul_left _ h1
    rwa [EuclideanDomain.mul_div_cancel' hU10 hs1u] at h2
  have hU2cv : o1.unknown ∣ hull / cv := by
    refine dvd_div_of_mul_dvd' hcv0 hcvh ?_
    have h1 : cv ∣ hull / o1.unknown := EuclideanDomain.gcd_dvd_right _ _
    have h2 : o1.unknown * cv ∣ o1.unknown * (hull / o1.unknown) :=
      mul_dvd_mul_left _ h1
    rwa [EuclideanDomain.mul_div_cancel' hU20 ho1u] at h2
  have hhull2eq : hull2 =
      EuclideanDomain.gcd (hull / cv * (s1.possible + o1.possible)) hull := by
    rw [hhull2, hav, ← gcdF_mul_left, mul_div_cancel_right' hcv0 hcvh]
  have hghull2 : g ∣ hull2 := by
    rw [hhull2eq]
    refine EuclideanDomain.dvd_gcd ?_ hgh
    have hsum : hull / cv * (s1.possible + o1.possible) =
        hull / cv * (i - s1.possible) + hull / cv * (i - o1.possible) := by
      rw [← mul_add, charTwoSum]
    rw [hsum]
    refine dvd_add (dvd_trans hs1i (mul_dvd_mul_right hU1cv _))
      (dvd_trans ho1i (mul_dvd_mul_right hU2cv _))
  have hhull2dvd : hull2 ∣ hull := hhull2eq ▸ EuclideanDomain.gcd_dvd_right _ _
  have hhull20 : hull2 ≠ 0 := by
    rw [hhull2]
    refine mul_ne_zero ?_ (F2X.gcd_ne_zero_of_right hcv0)
    intro h0
    have hmm := EuclideanDomain.mul_div_cancel' hcv0 hcvh
    rw [h0, mul_zero] at hmm
    exact hhull hmm.symm
  have hdegok : ¬ hull2.degree ≤ 0 := hull_deg_not_le hg1 hghull2 hhull20
  have hadj : adjust_compability s1 o1 hull =
      (pfmUpdateHull s1 hull2, pfmUpdateHull o1 hull2, hull2) := by
    rw [adjust_compability]
    simp only [hval1, hval2, ← hcv, ← hav, ← hhull2]
    rw [if_neg hdegok]
  have hs2 : pfmInv g i (pfmUpdateHull s1 hull2) hull2 :=
    pfmUpdateHull_inv ⟨hs1h, hs1u, hs1i⟩ hhull2dvd hghull2 hhull20
  have ho2 : pfmInv g i (pfmUpdateHull o1 hull2) hull2 :=
    pfmUpdateHull_inv ⟨ho1h, ho1u, ho1i⟩ hhull2dvd hghull2 hhull20
  set s2 := pfmUpdateHull s1 hull2 with hs2d
  set o2 := pfmUpdateHull o1 hull2 with ho2d
  obtain ⟨hs2h, hs2u, hs2i⟩ := hs2
  obtain ⟨ho2h, ho2u, ho2i⟩ := ho2
  have hW10 : s2.unknown ≠ 0 := by
    intro h0
    rw [h0] at hs2u
    exact hhull20 (zero_dvd_iff.mp hs2u)
  have hW20 : o2.unknown ≠ 0 := by
    intro h0
    rw [h0] at ho2u
    exact hhull20 (zero_dvd_iff.mp ho2u)
  have hsv : pfmValid s2 = hull2 / s2.unknown := by rw [pfmValid, hs2h]
  have hov : pfmValid o2 = hull2 / o2.unknown := by rw [pfmValid, ho2h]
  set sv := hull2 / s2.unknown with hsvd
  set ov := hull2 / o2.unknown with hovd
  have hW1sv : s2.unknown * sv = hull2 :=
    EuclideanDomain.mul_div_cancel' hW10 hs2u
  have hW2ov : o2.unknown * ov = hull2 :=
    EuclideanDomain.mul_div_cancel' hW20 ho2u
  have hsv0 : sv ≠ 0 := by
    intro h0
    rw [h0, mul_zero] at hW1sv
    exact hhull20 hW1sv.symm
  have hov0 : ov ≠ 0 := by
    intro h0
    rw [h0, mul_zero] at hW2ov
    exact hhull20 hW2ov.symm
  set cvv := EuclideanDomain.gcd sv ov with hcvv
  have hcvv0 : cvv ≠ 0 := F2X.gcd_ne_zero_of_right hov0
  set A := EuclideanDomain.gcdA sv ov with hA
  set B := EuclideanDomain.gcdB sv ov with hB
  set W := A * sv * o2.possible + B * ov * s2.possible with hW
  have hcvvW : cvv ∣ W := by
    refine dvd_add ?_ ?_
    · exact Dvd.dvd.mul_right
        (Dvd.dvd.mul_left (EuclideanDomain.gcd_dvd_left sv ov) A) _
    · exact Dvd.dvd.mul_right
        (Dvd.dvd.mul_left (EuclideanDomain.gcd_dvd_right sv ov) B) _
  set Vnew := W / cvv with hVnew
  have hWeq : cvv * Vnew = W := EuclideanDomain.mul_div_cancel' hcvv0 hcvvW
  have hbez : cvv = sv * A + ov * B := EuclideanDomain.gcd_eq_gcd_ab sv ov
  have hkey : cvv * (i - Vnew) =
      A * (sv * (i - o2.possible)) + B * (ov * (i - s2.possible)) := by
    have h1 : cvv * (i - Vnew) = cvv * i - W := by rw [mul_sub, hWeq]
    rw [h1, hW]
    conv_lhs => rw [hbez]
    ring
  set U := EuclideanDomain.gcd s2.unknown o2.unknown with hU
  have hgsv : g * cvv ∣ U * (sv * (i - o2.possible)) := by
    have hgcdsv : U * sv = EuclideanDomain.gcd hull2 (o2.unknown * sv) := by
      rw [hU, ← gcdF_mul_right, hW1sv]
    have h2 : U * (sv * (i - o2.possible)) =
        EuclideanDomain.gcd (hull2 * (i - o2.possible))
          (o2.unknown * sv * (i - o2.possible)) := by
      rw [← mul_assoc, hgcdsv, ← gcdF_mul_right]
    rw [h2]
    refine EuclideanDomain.dvd_gcd ?_ ?_
    · have hd : g * cvv ∣ o2.unknown * (i - o2.possible) * ov :=
        mul_dvd_mul ho2i (EuclideanDomain.gcd_dvd_right sv ov)
      have heq : o2.unknown * (i - o2.possible) * ov =
          hull2 * (i - o2.possible) := by
        rw [show o2.unknown * (i - o2.possible) * ov =
          o2.unknown * ov * (i - o2.possible) by ring, hW2ov]
      rwa [heq] at hd
    · have hd : g * cvv ∣ o2.unknown * (i - o2.possible) * sv :=
        mul_dvd_mul ho2i (EuclideanDomain.gcd_dvd_left sv ov)
      have heq : o2.unknown * (i - o2.possible) * sv =
          o2.unknown * sv * (i - o2.possible) := by ring
      rwa [heq] at hd
  have hgov : g * cvv ∣ U * (ov * (i - s2.possible)) := by
    have hgcdov : U * ov = EuclideanDomain.gcd (s2.unknown * ov) hull2 := by
      rw [hU, ← gcdF_mul_right, hW2ov]
    have h2 : U * (ov * (i - s2.possible)) =
        EuclideanDomain.gcd (s2.unknown * ov * (i - s2.possible))
          (hull2 * (i - s2.possible)) := by
      rw [← mul_assoc, hgcdov, ← gcdF_mul_right]
    rw [h2]
    refine EuclideanDomain.dvd_gcd ?_ ?_
    · have hd : g * cvv ∣ s2.unknown * (i - s2.possible) * ov :=
        mul_dvd_mul hs2i (EuclideanDomain.gcd_dvd_right sv ov)
      have heq : s2.unknown * (i - s2.possible) * ov =
          s2.unknown * ov * (i - s2.possible) := by ring
      rwa [heq] at hd
    · have hd : g * cvv ∣ s2.unknown * (i - s2.possible) * sv :=
        mul_dvd_mul hs2i (EuclideanDomain.gcd_dvd_left sv ov)
      have heq : s2.unknown * (i - s2.possible) * sv =
          hull2 * (i - s2.possible) := by
        rw [show s2.unknown * (i - s2.possible) * sv =
          s2.unknown * sv * (i - s2.possible) by ring, hW1sv]
      rwa [heq] at hd
  have hfinal : g ∣ U * (i - Vnew) := by
    have hbig : cvv * g ∣ cvv * (U * (i - Vnew)) := by
      have h2 : cvv * (U * (i - Vnew)) =
          A * (U * (sv * (i - o2.possible))) +
            B * (U * (ov * (i - s2.possible))) := by
      -- distribute using hkey
        calc cvv * (U * (i - Vnew)) = U * (cvv * (i - Vnew)) := by ring
          _ = U * (A * (sv * (i - o2.possible)) +
                B * (ov * (i - s2.possible))) := by rw [hkey]
          _ = A * (U * (sv * (i - o2.possible))) +
                B * (U * (ov * (i - s2.possible))) := by ring
      rw [h2]
      have h3 : cvv * g ∣ U * (sv * (i - o2.possible)) := by
        rwa [mul_comm cvv g]
      have h4 : cvv * g ∣ U * (ov * (i - s2.possible)) := by
        rwa [mul_comm cvv g]
      exact dvd_add (Dvd.dvd.mul_left h3 A) (Dvd.dvd.mul_left h4 B)
    exact (mul_dvd_mul_iff_left hcvv0).mp hbig
  refine ⟨⟨U, Vnew, hull2⟩, hull2, ?_, hhull2dvd, hhull20, hghull2, rfl,
    dvd_trans (EuclideanDomain.gcd_dvd_left _ _) hs2u, hfinal⟩
  rw [pfm_merge]
  simp only [← hs1d, ← ho1d, hadj, ← hs2d, ← ho2d]
  rw [if_neg hdegok]
  simp only [hsv, hov, ← hsvd, ← hovd, ← hcvv, ← hA, ← hB]


/-! ### Structure of the highest-power GCD (for `new_file`) -/

/-- For a non-zero modulus the fuelled highest-power GCD succeeds, its
result divides the modulus, is eventually `gcd(b^(2^m), a)`, and leaves a
quotient coprime to `b`. -/
theorem hpg_spec {a b : F2X} (ha : a ≠ 0) :
    ∃ A, highest_power_gcd a b = some A ∧ A ∣ a ∧ A ≠ 0 ∧
      EuclideanDomain.gcd b (a / A) = 1 ∧
      ∃ N : Nat, ∀ m, N ≤ m → A = EuclideanDomain.gcd (b ^ 2 ^ m) a := by
  have hsome : ∃ r, highest_power_gcd a b = some r := by
    rw [highest_power_gcd]
    by_cases hfix : hpgStep a (b % a) = b % a
    · exact ⟨b % a, by rw [hpgLoop, if_pos hfix]⟩
    · obtain ⟨r, hr⟩ := hpgLoop_isSome ha (a.natDegree + 1) (hpgStep a (b % a))
        (hpgStep_dvd a (b % a)) (hpgStep_ne_zero ha (b % a)) (by omega)
      exact ⟨r, by rw [hpgLoop, if_neg hfix, hr]⟩
  obtain ⟨A, hA⟩ := hsome
  obtain ⟨hfix, k, hk⟩ := hpgLoop_fixed _ _ _ hA
  have hstable := stepIter_stable hfix hk
  have hN : ∀ m, max k 1 ≤ m → A = EuclideanDomain.gcd (b ^ 2 ^ m) a := by
    intro m hm
    rw [← stepIter_eq_gcd_pow a b m (le_trans (le_max_right k 1) hm)]
    exact (hstable m (le_trans (le_max_left k 1) hm)).symm
  have hAdvd : A ∣ a := by
    rw [hN (max k 1) le_rfl]
    exact EuclideanDomain.gcd_dvd_right _ _
  have hA0 : A ≠ 0 := by
    rw [hN (max k 1) le_rfl]
    exact F2X.gcd_ne_zero_of_right ha
  refine ⟨A, hA, hAdvd, hA0, ?_, max k 1, hN⟩
  set q := EuclideanDomain.gcd b (a / A) with hq
  have hq1 : A * q ∣ a := by
    have h1 : q ∣ a / A := EuclideanDomain.gcd_dvd_right _ _
    have h2 : A * q ∣ A * (a / A) := mul_dvd_mul_left A h1
    rwa [EuclideanDomain.mul_div_cancel' hA0 hAdvd] at h2
  have hq2 : A * q ∣ b ^ 2 ^ (max k 1 + 1) := by
    have h1 : A ∣ b ^ 2 ^ max k 1 := by
      rw [hN (max k 1) le_rfl]
      exact EuclideanDomain.gcd_dvd_left _ _
    have h2 : q ∣ b := EuclideanDomain.gcd_dvd_left _ _
    have h3 : A * q ∣ b ^ 2 ^ max k 1 * b := mul_dvd_mul h1 h2
    have h4 : b ^ 2 ^ max k 1 * b = b ^ (2 ^ max k 1 + 1) := (pow_succ b _).symm
    rw [h4] at h3
    refine dvd_trans h3 (pow_dvd_pow b ?_)
    have h5 : 1 ≤ 2 ^ max k 1 := Nat.one_le_two_pow
    have h6 : 2 ^ (max k 1 + 1) = 2 ^ max k 1 + 2 ^ max k 1 := by ring
    omega
  have hq3 : A * q ∣ A * 1 := by
    rw [mul_one]
    have h := EuclideanDomain.dvd_gcd hq2 hq1
    rwa [← hN (max k 1 + 1) (by omega)] at h
  exact F2X.isUnit_eq_one (isUnit_of_dvd_one ((mul_dvd_mul_iff_left hA0).mp hq3))

/-- At a prime dividing `b`, the highest-power GCD takes the whole
multiplicity of the modulus. -/
theorem hpg_vF_of_dvd {a b A : F2X} (ha : a ≠ 0)
    (hN : ∃ N : Nat, ∀ m, N ≤ m → A = EuclideanDomain.gcd (b ^ 2 ^ m) a)
    {p : F2X} (hp : Prime p) (hpb : p ∣ b) : vF p A = vF p a := by
  obtain ⟨N, hN⟩ := hN
  set m := max N (a.natDegree + 1) with hm
  rw [hN m (le_max_left _ _), vF_gcd hp]
  refine min_eq_right (le_of_lt ?_)
  have h1 : vF p a ≤ (a.natDegree : ℕ∞) := vF_le_natDegree hp ha
  have h2 : (a.natDegree : ℕ∞) < ((2 ^ m : ℕ) : ℕ∞) := by
    have hlt : a.natDegree < 2 ^ m :=
      lt_of_lt_of_le (by omega : a.natDegree < m) (le_of_lt (Nat.lt_two_pow m))
    exact_mod_cast hlt
  have h3 : ((2 ^ m : ℕ) : ℕ∞) ≤ vF p (b ^ 2 ^ m) := by
    rw [vF, emultiplicity_pow hp]
    calc ((2 ^ m : ℕ) : ℕ∞) = (2 ^ m : ℕ) * 1 := (mul_one _).symm
      _ ≤ (2 ^ m : ℕ) * emultiplicity p b :=
          mul_le_mul_left' (vF_one_le_of_dvd hpb) _
  exact lt_of_le_of_lt h1 (lt_of_lt_of_le h2 h3)

/-- At a prime not dividing `b`, the highest-power GCD is trivial. -/
theorem hpg_vF_of_not_dvd {a b A : F2X}
    (hN : ∃ N : Nat, ∀ m, N ≤ m → A = EuclideanDomain.gcd (b ^ 2 ^ m) a)
    {p : F2X} (hp : Prime p) (hpb : ¬ p ∣ b) : vF p A = 0 := by
  obtain ⟨N, hN⟩ := hN
  rw [hN N le_rfl, vF_gcd hp]
  have h1 : vF p (b ^ 2 ^ N) = 0 := by
    rw [vF, emultiplicity_pow hp, emultiplicity_eq_zero.mpr hpb, mul_zero]
  rw [h1]
  exact min_eq_left (zero_le _)

theorem vF_eq_zero_of_not_dvd {p x : F2X} (h : ¬ p ∣ x) : vF p x = 0 := by
  rw [vF, emultiplicity_eq_zero.mpr h]

theorem dvd_mod_sub_self (h x : F2X) : h ∣ x % h - x := by
  have hdm : h * (x / h) + x % h = x := EuclideanDomain.div_add_mod x h
  have hx : x % h - x = -(h * (x / h)) := by linear_combination hdm
  rw [hx]
  exact dvd_neg.mpr (dvd_mul_right h _)

/-- `inverse_fixed` (for the call shape of `new_file`): when the divisor is
invertible modulo the reduced hull — or the reduced hull is trivial — the
call succeeds and the result `poss` solves `b · poss ≡ a (mod hull)`. -/
theorem inverse_fixed_spec {a b c hull : F2X}
    (hc0 : c ≠ 0) (hch : c ∣ hull) (hca : c ∣ a) (hcb : c ∣ b)
    (hcop : hull / c ≠ 1 → EuclideanDomain.gcd (b / c) (hull / c) = 1) :
    ∃ poss, inverse_fixed_poly a b c hull = some poss ∧
      hull ∣ b * poss - a := by
  rw [inverse_fixed_poly]
  by_cases hm1 : hull / c = 1
  · rw [if_pos hm1]
    refine ⟨0, rfl, ?_⟩
    have hhc : hull = c := by
      have h1 := EuclideanDomain.mul_div_cancel' hc0 hch
      rw [hm1, mul_one] at h1
      exact h1.symm
    rw [mul_zero, zero_sub, dvd_neg, hhc]
    exact hca
  · rw [if_neg hm1, if_pos (hcop hm1)]
    set m := hull / c with hm
    set b2 := b / c with hb2
    set a2 := a / c with ha2
    have hcm : c * m = hull := EuclideanDomain.mul_div_cancel' hc0 hch
    have hcb2 : c * b2 = b := EuclideanDomain.mul_div_cancel' hc0 hcb
    have hca2 : c * a2 = a := EuclideanDomain.mul_div_cancel' hc0 hca
    set A := EuclideanDomain.gcdA b2 m with hA
    set B := EuclideanDomain.gcdB b2 m with hB
    have hbez : (1 : F2X) = b2 * A + m * B := by
      rw [← hcop hm1, hA, hB]
      exact EuclideanDomain.gcd_eq_gcd_ab b2 m
    set q := a2 * A / m with hq
    have hmoddm : m * q + a2 * A % m = a2 * A := EuclideanDomain.div_add_mod _ _
    refine ⟨a2 * A % m, rfl, ?_⟩
    have hkey : b * (a2 * A % m) - a = c * m * (-(a2 * B) - b2 * q) := by
      rw [← hca2, ← hcb2]
      linear_combination (c * b2) * hmoddm - (c * a2) * hbez
    rw [hkey, ← hcm]
    exact Dvd.dvd.mul_right (dvd_refl (c * m)) _

/-- `new_file` under the solver invariant: the hull never collapses, the
returned `PrefactorMod` satisfies the init-coset invariant, the hull stays
a non-zero multiple of the true generator, and the `MemoPower` state is at
most re-reduced modulo the new hull. -/
theorem new_file_inv {g i file0 initFac : F2X} {ms : MemoS} {hull : F2X}
    (hg1 : 1 ≤ g.degree) (hhull : hull ≠ 0) (hgh : g ∣ hull)
    (hcar : g ∣ file0 - i * initFac) :
    ∃ fs h2 ms2, new_file_poly file0 initFac ms hull =
        some (NFRes.ok fs h2 ms2) ∧
      h2 ∣ hull ∧ h2 ≠ 0 ∧ g ∣ h2 ∧ pfmInv g i fs h2 ∧
      ms2.prevPower = ms.prevPower ∧ h2 ∣ ms2.prevPPoly - ms.prevPPoly := by
  rw [new_file_poly]
  set file := file0 % hull with hfiled
  set fF := EuclideanDomain.gcd file hull with hfFd
  set pF := EuclideanDomain.gcd initFac hull with hpFd
  set c := EuclideanDomain.gcd pF fF with hcd
  set disc := pF / c with hdiscd
  have hfF0 : fF ≠ 0 := F2X.gcd_ne_zero_of_right hhull
  have hpF0 : pF ≠ 0 := F2X.gcd_ne_zero_of_right hhull
  have hc0 : c ≠ 0 := F2X.gcd_ne_zero_of_right hfF0
  have hcpF : c ∣ pF := EuclideanDomain.gcd_dvd_left _ _
  have hcfF : c ∣ fF := EuclideanDomain.gcd_dvd_right _ _
  have hpFh : pF ∣ hull := EuclideanDomain.gcd_dvd_right _ _
  have hpFF : pF ∣ initFac := EuclideanDomain.gcd_dvd_left _ _
  have hfFf : fF ∣ file := EuclideanDomain.gcd_dvd_left _ _
  have hcF : c ∣ initFac := dvd_trans hcpF hpFF
  have hcfile : c ∣ file := dvd_trans hcfF hfFf
  have hch : c ∣ hull := dvd_trans hcpF hpFh
  have hpFcd : c * disc = pF := EuclideanDomain.mul_div_cancel' hc0 hcpF
  have hcarf : g ∣ file - i * initFac := by
    have hdm : hull ∣ file - file0 := dvd_mod_sub_self hull file0
    have hsp : file - i * initFac = (file0 - i * initFac) + (file - file0) := by
      ring
    rw [hsp]
    exact dvd_add hcar (dvd_trans hgh hdm)
  by_cases hdisc1 : disc = 1
  · rw [if_pos hdisc1]
    have hpc : pF = c := by rw [← hpFcd, hdisc1, mul_one]
    have hcop : hull / c ≠ 1 →
        EuclideanDomain.gcd (initFac / c) (hull / c) = 1 := by
      intro _
      have h1 := gcd_div_gcd_coprime initFac hull hhull
      rw [← hpFd, hpc] at h1
      exact h1
    obtain ⟨poss, hposs, hFV⟩ := inverse_fixed_spec hc0 hch hcfile hcF hcop
    rw [hposs]
    refine ⟨⟨c, poss, hull⟩, hull, ms, rfl, dvd_refl hull, hhull, hgh,
      ⟨rfl, hch, ?_⟩, rfl, by simp⟩
    have h1 : g ∣ initFac * (i - poss) := by
      have hsp2 : initFac * (i - poss) =
          (i * initFac - file) + (file - initFac * poss) := by ring
      rw [hsp2]
      exact dvd_add (dvd_sub_comm.mp hcarf)
        (dvd_trans hgh (dvd_sub_comm.mp hFV))
    have h2 : g ∣ hull * (i - poss) := Dvd.dvd.mul_right hgh _
    have h3 := g_dvd_gcd_mul h1 h2
    rw [← hpFd, hpc] at h3
    exact h3
  · rw [if_neg hdisc1]
    have hdisc0 : disc ≠ 0 := by
      intro h0
      rw [h0, mul_zero] at hpFcd
      exact hpF0 hpFcd.symm
    obtain ⟨A, hApg, hAd, hA0, _, hAN⟩ := hpg_spec (b := disc) hhull
    simp only [hApg]
    set fP := EuclideanDomain.gcd fF A with hfPd
    set hull2 := hull / A * fP with hhull2d
    have hHA0 : hull / A ≠ 0 := by
      intro h0
      have h1 := EuclideanDomain.mul_div_cancel' hA0 hAd
      rw [h0, mul_zero] at h1
      exact hhull h1.symm
    have hfP0 : fP ≠ 0 := F2X.gcd_ne_zero_of_right hA0
    have hfPA : fP ∣ A := EuclideanDomain.gcd_dvd_right _ _
    have hAHA : hull / A * A = hull := mul_div_cancel_right' hA0 hAd
    have hhull2_0 : hull2 ≠ 0 := mul_ne_zero hHA0 hfP0
    have hhull2_dvd : hull2 ∣ hull := by
      have h1 : hull2 ∣ hull / A * A := by
        rw [hhull2d]
        exact mul_dvd_mul_left _ hfPA
      rwa [hAHA] at h1
    have hK3 : hull2 = EuclideanDomain.gcd (hull / A * fF) hull := by
      rw [hhull2d, hfPd, ← gcdF_mul_left, hAHA]
    have hchull2 : c ∣ hull2 := by
      rw [hK3]
      exact EuclideanDomain.dvd_gcd (Dvd.dvd.mul_left hcfF _) hch
    have hsplitv : ∀ p : F2X, Prime p →
        vF p hull = vF p A + vF p (hull / A) := by
      intro p hp
      have h1 : vF p (hull / A * A) = vF p (hull / A) + vF p A := vF_mul hp _ _
      rw [hAHA] at h1
      rw [h1, add_comm]
    have hvhull2 : ∀ p : F2X, Prime p →
        vF p hull2 = vF p (hull / A) + vF p fP := by
      intro p hp
      rw [hhull2d]
      exact vF_mul hp _ _
    have hND : ∀ p : F2X, Prime p → ¬ p ∣ disc →
        vF p hull2 = vF p hull ∧ vF p c = min (vF p initFac) (vF p hull2) := by
      intro p hp hpd
      have hvA : vF p A = 0 := hpg_vF_of_not_dvd hAN hp hpd
      have hHA : vF p (hull / A) = vF p hull := by
        have h1 := hsplitv p hp
        rw [hvA, zero_add] at h1
        exact h1.symm
      have hvfP : vF p fP = 0 := by
        rw [hfPd, vF_gcd hp, hvA]
        exact min_eq_right (zero_le _)
      have hv2 : vF p hull2 = vF p hull := by
        rw [hvhull2 p hp, hHA, hvfP, add_zero]
      refine ⟨hv2, ?_⟩
      have hvdisc : vF p disc = 0 := vF_eq_zero_of_not_dvd hpd
      have hvpF : vF p pF = vF p c := by
        have h1 : vF p (c * disc) = vF p c + vF p disc := vF_mul hp _ _
        rw [hpFcd, hvdisc, add_zero] at h1
        exact h1
      have h2 : vF p pF = min (vF p initFac) (vF p hull) := by
        rw [hpFd]
        exact vF_gcd hp _ _
      rw [hv2, ← hvpF, h2]
    have hD : ∀ p : F2X, Prime p → p ∣ disc →
        vF p hull2 = vF p file ∧ vF p g ≤ vF p file ∧
        vF p c = min (vF p initFac) (vF p hull2) := by
      intro p hp hpd
      have hvA : vF p A = vF p hull := hpg_vF_of_dvd hhull hAN hp hpd
      have hHA : vF p (hull / A) = 0 := by
        have h1 := hsplitv p hp
        rw [hvA] at h1
        have h2 : vF p hull + 0 = vF p hull + vF p (hull / A) := by
          rw [add_zero]
          exact h1
        exact (WithTop.add_left_cancel (vF_ne_top hp hhull) h2).symm
      have h1d : 1 ≤ vF p disc := vF_one_le_of_dvd hpd
      have hcltpF : vF p c < vF p pF := by
        have h1 : vF p (c * disc) = vF p c + vF p disc := vF_mul hp _ _
        rw [hpFcd] at h1
        have h2 : vF p c + 1 ≤ vF p pF := by
          rw [h1]
          exact add_le_add_left h1d _
        exact (ENat.add_one_le_iff (vF_ne_top hp hc0)).mp h2
      have hvcmin : vF p c = min (vF p pF) (vF p fF) := by
        rw [hcd]
        exact vF_gcd hp _ _
      have hfFlt : vF p fF < vF p pF ∧ vF p c = vF p fF := by
        rcases le_or_lt (vF p pF) (vF p fF) with hle | hlt
        · rw [min_eq_left hle] at hvcmin
          exact absurd hcltpF (by rw [hvcmin]; exact lt_irrefl _)
        · exact ⟨hlt, by rw [hvcmin, min_eq_right (le_of_lt hlt)]⟩
      have hvfF : vF p fF = min (vF p file) (vF p hull) := by
        rw [hfFd]
        exact vF_gcd hp _ _
      have hvpF2 : vF p pF = min (vF p initFac) (vF p hull) := by
        rw [hpFd]
        exact vF_gcd hp _ _
      have hpFle_hull : vF p pF ≤ vF p hull := by
        rw [hvpF2]
        exact min_le_right _ _
      have hfFlt_hull : vF p fF < vF p hull := lt_of_lt_of_le hfFlt.1 hpFle_hull
      have hfile_lt_hull : vF p file < vF p hull := by
        rcases lt_or_le (vF p file) (vF p hull) with h | h
        · exact h
        · rw [hvfF, min_eq_right h] at hfFlt_hull
          exact absurd hfFlt_hull (lt_irrefl _)
      have hvfF_file : vF p fF = vF p file := by
        rw [hvfF]
        exact min_eq_left (le_of_lt hfile_lt_hull)
      have hfile_lt_F : vF p file < vF p initFac := by
        have h4 : vF p file < vF p pF := by
          rw [← hvfF_file]
          exact hfFlt.1
        exact lt_of_lt_of_le h4 (by rw [hvpF2]; exact min_le_left _ _)
      have hvfP : vF p fP = vF p file := by
        rw [hfPd, vF_gcd hp, hvfF_file, hvA]
        exact min_eq_left (le_of_lt hfile_lt_hull)
      have hv2 : vF p hull2 = vF p file := by
        rw [hvhull2 p hp, hHA, hvfP, zero_add]
      have hg_le : vF p g ≤ vF p file := by
        have hlt2 : vF p file < vF p (i * initFac) := by
          rw [vF_mul hp]
          exact lt_of_lt_of_le hfile_lt_F le_add_self
        exact vF_le_of_lt_of_dvd_sub hcarf hlt2
      refine ⟨hv2, hg_le, ?_⟩
      rw [hv2, hfFlt.2, hvfF_file]
      exact (min_eq_right (le_of_lt hfile_lt_F)).symm
    have hghull2 : g ∣ hull2 := by
      rw [F2X.dvd_iff_vF_le]
      intro p hp
      by_cases hpd : p ∣ disc
      · rw [(hD p hp hpd).1]
        exact (hD p hp hpd).2.1
      · rw [(hND p hp hpd).1]
        exact vF_dvd_mono hgh
    have hgcdF2 : EuclideanDomain.gcd initFac hull2 = c := by
      refine F2X.dvd_antisymm ?_ (EuclideanDomain.dvd_gcd hcF hchull2)
      rw [F2X.dvd_iff_vF_le]
      intro p hp
      refine le_of_eq ?_
      rw [vF_gcd hp]
      by_cases hpd : p ∣ disc
      · exact ((hD p hp hpd).2.2).symm
      · exact ((hND p hp hpd).2).symm
    have hdegok : ¬ hull2.degree ≤ 0 := hull_deg_not_le hg1 hghull2 hhull2_0
    rw [if_neg hdegok]
    have hcop2 : hull2 / c ≠ 1 →
        EuclideanDomain.gcd (initFac / c) (hull2 / c) = 1 := by
      intro _
      have h1 := gcd_div_gcd_coprime initFac hull2 hhull2_0
      rw [hgcdF2] at h1
      exact h1
    obtain ⟨poss, hposs, hFV⟩ := inverse_fixed_spec hc0 hchull2 hcfile hcF hcop2
    rw [hposs]
    refine ⟨⟨c, poss, hull2⟩, hull2, memoUpdateHull ms hull2, rfl, hhull2_dvd,
      hhull2_0, hghull2, ⟨rfl, hchull2, ?_⟩, rfl, ?_⟩
    · have h1 : g ∣ initFac * (i - poss) := by
        have hsp2 : initFac * (i - poss) =
            (i * initFac - file) + (file - initFac * poss) := by ring
        rw [hsp2]
        exact dvd_add (dvd_sub_comm.mp hcarf)
          (dvd_trans hghull2 (dvd_sub_comm.mp hFV))
      have h2 : g ∣ hull2 * (i - poss) := Dvd.dvd.mul_right hghull2 _
      have h3 := g_dvd_gcd_mul h1 h2
      rw [hgcdF2] at h3
      exact h3
    · rw [memoUpdateHull]
      exact dvd_mod_sub_self hull2 ms.prevPPoly

/-- The `MemoPower` query levels of an `F2X` carrier list, in order. -/
def allQueriesF (polys : List (F2X × InitPlace)) : List Nat :=
  polys.flatMap (fun c => placeQueries c.2)

/-- A non-descending `update_power` call succeeds and the new cached power
is `X^(8d)` modulo the hull. -/
theorem memoUpdatePower_spec {hull : F2X} {ms : MemoS} {d : Nat}
    (hle : ms.prevPower ≤ d)
    (hinv : hull ∣ ms.prevPPoly - Polynomial.X ^ (8 * ms.prevPower)) :
    ∃ r, memoUpdatePower hull ms d = some (r, ⟨d, r⟩) ∧
      hull ∣ r - Polynomial.X ^ (8 * d) := by
  rw [memoUpdatePower, if_neg (not_lt.mpr hle)]
  refine ⟨_, rfl, ?_⟩
  set P := ms.prevPPoly with hP
  set E := (Polynomial.X : F2X) ^ (8 * (d - ms.prevPower)) with hE
  have h5 : Polynomial.X ^ (8 * ms.prevPower) * E = Polynomial.X ^ (8 * d) := by
    rw [hE, ← pow_add]
    congr 1
    omega
  have h1 : hull ∣ P * (E % hull) % hull - P * (E % hull) :=
    dvd_mod_sub_self hull _
  have h3 : hull ∣ P * (E % hull) - P * E := by
    have hx : P * (E % hull) - P * E = P * (E % hull - E) := by ring
    rw [hx]
    exact Dvd.dvd.mul_left (dvd_mod_sub_self hull E) P
  have h4 : hull ∣ P * E - Polynomial.X ^ (8 * d) := by
    have he : P * E - Polynomial.X ^ (8 * d) =
        (P - Polynomial.X ^ (8 * ms.prevPower)) * E := by
      rw [← h5]
      ring
    rw [he]
    exact Dvd.dvd.mul_right hinv E
  have htel : P * (E % hull) % hull - Polynomial.X ^ (8 * d) =
      (P * (E % hull) % hull - P * (E % hull)) + (P * (E % hull) - P * E) +
      (P * E - Polynomial.X ^ (8 * d)) := by ring
  rw [htel]
  exact dvd_add (dvd_add h1 h3) h4

/-- `update_init_fac` under an ascending query chain: it succeeds, returns
the tag polynomial modulo the hull, and preserves the cache invariant and
the chain for the remaining queries. -/
theorem memoUpdateInitFac_spec {hull : F2X} {ms : MemoS} {pl : InitPlace}
    {tail : List Nat}
    (hmsinv : hull ∣ ms.prevPPoly - Polynomial.X ^ (8 * ms.prevPower))
    (hasc : List.Chain' (· ≤ ·) (ms.prevPower :: (placeQueries pl ++ tail))) :
    ∃ r ms2, memoUpdateInitFac hull ms pl = some (r, ms2) ∧
      hull ∣ r - placeEval pl ∧
      hull ∣ ms2.prevPPoly - Polynomial.X ^ (8 * ms2.prevPower) ∧
      List.Chain' (· ≤ ·) (ms2.prevPower :: tail) := by
  cases pl with
  | place_none =>
    refine ⟨0, ms, rfl, by simp [placeEval], hmsinv, ?_⟩
    simpa [placeQueries] using hasc
  | single d =>
    simp only [placeQueries, List.cons_append, List.nil_append,
      List.chain'_cons] at hasc
    obtain ⟨r, hr, hinv2⟩ := memoUpdatePower_spec hasc.1 hmsinv
    refine ⟨r, ⟨d, r⟩, ?_, ?_, hinv2, hasc.2⟩
    · simp only [memoUpdateInitFac]
      exact hr
    · simpa [placeEval, power8n] using hinv2
  | pair d1 d2 =>
    simp only [placeQueries, List.cons_append, List.nil_append,
      List.chain'_cons] at hasc
    obtain ⟨r1, hr1, hinv1⟩ := memoUpdatePower_spec hasc.1 hmsinv
    have hle2 : (⟨d1, r1⟩ : MemoS).prevPower ≤ d2 := hasc.2.1
    obtain ⟨r2, hr2, hinv2⟩ := memoUpdatePower_spec hle2 hinv1
    refine ⟨r1 + r2, ⟨d2, r2⟩, ?_, ?_, hinv2, hasc.2.2⟩
    · simp [memoUpdateInitFac, hr1, hr2]
    · have hsp : r1 + r2 - (power8n d1 + power8n d2) =
          (r1 - Polynomial.X ^ (8 * d1)) + (r2 - Polynomial.X ^ (8 * d2)) := by
        rw [power8n, power8n]
        ring
      simp only [placeEval]
      rw [hsp]
      exact dvd_add hinv1 hinv2

/-- The `find_init` loop invariant: under ascending queries and carriers
congruent to `init` times their tag polynomial modulo the true generator,
the loop succeeds, never collapses the hull, and preserves the init-coset
invariant of the accumulated solution set. -/
theorem fiLoop_inv {g i : F2X} (hg1 : 1 ≤ g.degree) :
    ∀ (polys : List (F2X × InitPlace)) (ret : PfmP) (ms : MemoS) (hull : F2X),
    hull ≠ 0 → g ∣ hull → pfmInv g i ret hull →
    hull ∣ ms.prevPPoly - Polynomial.X ^ (8 * ms.prevPower) →
    List.Chain' (· ≤ ·) (ms.prevPower :: allQueriesF polys) →
    (∀ c ∈ polys, g ∣ c.1 - i * placeEval c.2) →
    ∃ ret2 hull2, fiLoop ret ms hull polys = some (ret2, hull2) ∧
      hull2 ∣ hull ∧ hull2 ≠ 0 ∧ g ∣ hull2 ∧ pfmInv g i ret2 hull2 := by
  intro polys
  induction polys with
  | nil =>
    intro ret ms hull hh hgh hret _ _ _
    exact ⟨ret, hull, rfl, dvd_refl hull, hh, hgh, hret⟩
  | cons c rest ih =>
    intro ret ms hull hh hgh hret hmsinv hasc hcars
    obtain ⟨p, l⟩ := c
    have hasc' : List.Chain' (· ≤ ·)
        (ms.prevPower :: (placeQueries l ++ allQueriesF rest)) := by
      simpa [allQueriesF] using hasc
    obtain ⟨r, ms1, hr, hrcong, hms1inv, hchainrest⟩ :=
      memoUpdateInitFac_spec hmsinv hasc'
    have hcarc : g ∣ p - i * placeEval l :=
      hcars (p, l) (List.mem_cons_self _ _)
    have hcar : g ∣ p - i * r := by
      have hsp : p - i * r = (p - i * placeEval l) + i * (placeEval l - r) := by
        ring
      rw [hsp]
      exact dvd_add hcarc
        (Dvd.dvd.mul_left (dvd_trans hgh (dvd_sub_comm.mp hrcong)) i)
    obtain ⟨fs, h2, ms2, hnf, h2dvd, h2ne, gh2, hfsinv, hms2pp, hms2ppoly⟩ :=
      new_file_inv (g := g) (i := i) hg1 hh hgh hcar
    obtain ⟨ret2, hull3, hmerge, h3dvd, h3ne, gh3, hret2inv⟩ :=
      pfm_merge_inv hg1 h2ne gh2 hret h2dvd hfsinv
    have hms2inv : hull3 ∣ ms2.prevPPoly - Polynomial.X ^ (8 * ms2.prevPower) := by
      rw [hms2pp]
      have hsp : ms2.prevPPoly - Polynomial.X ^ (8 * ms1.prevPower) =
          (ms2.prevPPoly - ms1.prevPPoly) +
          (ms1.prevPPoly - Polynomial.X ^ (8 * ms1.prevPower)) := by ring
      rw [hsp]
      exact dvd_add (dvd_trans h3dvd hms2ppoly)
        (dvd_trans (dvd_trans h3dvd h2dvd) hms1inv)
    have hchain2 : List.Chain' (· ≤ ·) (ms2.prevPower :: allQueriesF rest) := by
      rw [hms2pp]
      exact hchainrest
    obtain ⟨retF, hullF, hloop, hFdvd, hF0, hgF, hFinv⟩ :=
      ih ret2 ms2 hull3 h3ne gh3 hret2inv hms2inv hchain2
        (fun c hc => hcars c (List.mem_cons_of_mem _ hc))
    have hstep : fiLoop ret ms hull ((p, l) :: rest) =
        fiLoop ret2 ms2 hull3 rest := by
      simp [fiLoop, hr, hnf, hmerge]
    refine ⟨retF, hullF, ?_, ?_, hF0, hgF, hFinv⟩
    · rw [hstep]
      exact hloop
    · exact dvd_trans hFdvd (dvd_trans h3dvd h2dvd)

set_option maxHeartbeats 1000000 in
/-- **C5.** Init coset correctness: for a true generator `G` of degree at
least 1, a true `init`, any non-zero prefactor `F`, and any carrier family
(xorout already eliminated) whose polynomials are congruent to `init` times
their tag polynomial modulo `G` and whose `MemoPower` query levels ascend,
running `find_init` with initial hull `H = F·G` succeeds and returns a
`PrefactorMod` `(U, V, ·)` with `U·init ≡ U·V (mod G)`, and the final hull
is still a (non-zero) multiple of `G`. -/
theorem C5_find_init_coset (g i F : F2X) (polys : List (F2X × InitPlace))
    (hg1 : 1 ≤ g.degree) (hF : F ≠ 0)
    (hasc : List.Chain' (· ≤ ·) (0 :: allQueriesF polys))
    (hcars : ∀ c ∈ polys, g ∣ c.1 - i * placeEval c.2) :
    ∃ ret hull2, find_init_poly (F * g) polys = some (ret, hull2) ∧
      g ∣ ret.unknown * (i - ret.possible) ∧ hull2 ≠ 0 ∧ g ∣ hull2 := by
  have hg0 : g ≠ 0 := by
    intro h0
    rw [h0, Polynomial.degree_zero] at hg1
    exact absurd hg1 (by decide)
  have hh0 : F * g ≠ 0 := mul_ne_zero hF hg0
  have hgh : g ∣ F * g := dvd_mul_left g F
  have hdeg : ¬ (F * g).degree ≤ 0 := hull_deg_not_le hg1 hgh hh0
  rw [find_init_poly, if_neg hdeg]
  have hretinv : pfmInv g i ⟨F * g, 0, F * g⟩ (F * g) :=
    ⟨rfl, dvd_refl _, Dvd.dvd.mul_right hgh _⟩
  have hmsinv : F * g ∣ (1 : F2X) % (F * g) - Polynomial.X ^ (8 * 0) := by
    have h1 : Polynomial.X ^ (8 * 0) = (1 : F2X) := by
      rw [mul_zero, pow_zero]
    rw [h1]
    exact dvd_mod_sub_self (F * g) 1
  obtain ⟨ret2, hull2, hloop, _, h2ne, gh2, hinv⟩ :=
    fiLoop_inv hg1 polys ⟨F * g, 0, F * g⟩ ⟨0, 1 % (F * g)⟩ (F * g)
      hh0 hgh hretinv hmsinv hasc hcars
  exact ⟨ret2, hull2, hloop, hinv.2.2, h2ne, gh2⟩

/-- Witness for C5: generator `X`, `init = 0`, prefactor `1`, no carriers. -/
theorem C5_witness :
    (1 : F2X) ≠ 0 ∧ 1 ≤ (Polynomial.X : F2X).degree ∧
    ∃ ret hull2, find_init_poly ((1 : F2X) * Polynomial.X) [] =
        some (ret, hull2) ∧
      (Polynomial.X : F2X) ∣ ret.unknown * ((0 : F2X) - ret.possible) ∧
      hull2 ≠ 0 ∧ (Polynomial.X : F2X) ∣ hull2 :=
  ⟨one_ne_zero, by simp,
    C5_find_init_coset Polynomial.X 0 1 [] (by simp) one_ne_zero
      (by simp [allQueriesF]) (by simp)⟩

/-- Witness for C8 at `A = X`, `B = X + 1`. -/
theorem C8_witness :
    (Polynomial.X : F2X) ≠ 0 ∧
    (∃ r, highest_power_gcd Polynomial.X (Polynomial.X + 1) = some r ∧
      hpgStep Polynomial.X r = r ∧
      ∃ M, 1 ≤ M ∧ ∀ n, M ≤ n →
        EuclideanDomain.gcd ((Polynomial.X + 1) ^ n) Polynomial.X = r) :=
  ⟨Polynomial.X_ne_zero,
    C8_highest_power_gcd Polynomial.X (Polynomial.X + 1) Polynomial.X_ne_zero⟩

end Delsum
